import Mathlib

/-!
Verification development for the morning-digest curation pipeline
(`src/digest/services/pipeline/{dedup,group,rank,orchestrator}.py`,
`src/digest/models.py`, `src/digest/services/llm.py`).

The Python code is shallowly embedded:

* Articles and interaction records become Lean structures; `datetime`
  values become `Int` timestamps; UUIDs become `Nat` identities.
* Python lists become `List`; list indexing `l[i]` with a possibly
  negative `int` index is modelled by `pyIndex`/`pyGetI` (negative
  indices wrap, out-of-range raises `IndexError`, modelled as
  `Except.error ()`).
* Python dicts that are only ever read through `.get` are modelled as
  functions; dicts whose key *order* matters (`dict.setdefault` /
  insertion order) are modelled as association lists in first-insertion
  order.
* `sorted(..., key=k, reverse=True)` and `list.sort(key=k, reverse=True)`
  are stable descending sorts; they are modelled by `sortByDesc`, an
  insertion sort that is stable and descending on the key.
* IEEE-754 float arithmetic in the TF-IDF scoring path is modelled as
  exact real arithmetic (`ℝ`, `Real.log`); everywhere else the floats
  involved (interaction weights, `0.5` dampening) are dyadic rationals,
  for which float arithmetic at these magnitudes is exact, and the
  embedding uses `ℚ`.
* A raising `await` call is modelled as `Except.error ()`; code that the
  Python runtime would complete without an exception is `Except.ok`.
-/

set_option maxHeartbeats 1000000

/-- `UserTier` from `models.py`. -/
inductive UserTier where
  | free
  | paid
deriving DecidableEq, Repr

/-- `InteractionType` from `models.py`. -/
inductive InteractionType where
  | read
  | tapped_through
  | saved
  | dismissed
deriving DecidableEq, Repr

/-- The fields of `models.Article` that the pipeline reads.  `id` models the
UUID identity, timestamps are integers, `published_at` is optional exactly as
in the source. -/
structure Article where
  id : Nat
  title : String
  content_text : Option String
  published_at : Option Int
  created_at : Int
  fingerprint : String
deriving DecidableEq, Repr

/-- A placeholder article used to totalise list lookups whose indices are
proved in range before use. -/
def dummyArticle : Article :=
  { id := 0, title := "", content_text := none, published_at := none,
    created_at := 0, fingerprint := "" }

/-- `dedup.DedupGroup`. -/
structure DedupGroup where
  primary : Article
  duplicates : List Article
deriving DecidableEq, Repr

/-- `group.TopicGroup`.  `article_summaries` is a Python dict keyed by `int`;
it is modelled as an association list in insertion order with
overwrite-on-collision semantics (`pyDictInsert`). -/
structure TopicGroup where
  topic_label : String
  articles : List Article
  primary_index : Nat
  group_summary : Option String
  article_summaries : List (Int × String)
deriving DecidableEq, Repr

/-- `llm.GroupResult`: one topic group proposed by the enrichment oracle,
post JSON parsing (indices are Python ints). -/
structure GroupResultM where
  topic_label : String
  article_indices : List Int
  primary_index : Int
  group_summary : String
  article_summaries : List (Int × String)
deriving DecidableEq, Repr

/-- One `models.UserInteraction` row as read by the ranker: the article it
references and its kind. -/
structure Interaction where
  article_id : Nat
  type : InteractionType
deriving DecidableEq, Repr

/-- One `models.DigestItem` row as materialized by the orchestrator. -/
structure DigestItemM where
  article_id : Nat
  sort_order : Nat
  ai_summary : Option String
  is_primary : Bool
deriving DecidableEq, Repr

/-- One `models.DigestGroup` row with its items. -/
structure DigestGroupM where
  topic_label : String
  sort_order : Nat
  summary : Option String
  items : List DigestItemM
deriving DecidableEq, Repr

/-- The materialized `models.Digest` (the parts the pipeline writes). -/
structure DigestM where
  tier_at_creation : UserTier
  groups : List DigestGroupM
deriving DecidableEq, Repr

/-! ### Python collection semantics -/

/-- Resolve a Python list index of signed type against a list of length `n`:
`0 ≤ i < n` is used as is, `-n ≤ i < 0` wraps to `i + n`, anything else is an
`IndexError` (`none`). -/
def pyIndex (n : Nat) (i : Int) : Option Nat :=
  if 0 ≤ i ∧ i < (n : Int) then some i.toNat
  else if -(n : Int) ≤ i ∧ i < 0 then some (i + n).toNat
  else none

/-- Python `l[i]` for an `int` index: `IndexError` becomes `Except.error`. -/
def pyGetI {α : Type} [Inhabited α] (l : List α) (i : Int) : Except Unit α :=
  match pyIndex l.length i with
  | some k => Except.ok (l.getD k default)
  | none => Except.error ()

instance : Inhabited Article := ⟨dummyArticle⟩

/-- Helper for `dedupFirst`: drop the elements already in `seen`, keeping
first occurrences (structural recursion so that witnesses can evaluate it). -/
def dedupFirstAux {α : Type} [DecidableEq α] (seen : List α) : List α → List α
  | [] => []
  | a :: l => if a ∈ seen then dedupFirstAux seen l else a :: dedupFirstAux (seen ++ [a]) l

/-- The elements of `l` with their first occurrence kept and later duplicates
dropped: the key sequence of a Python dict built by repeated insertion. -/
def dedupFirst {α : Type} [DecidableEq α] (l : List α) : List α :=
  dedupFirstAux [] l

/-- Fuel-driven helper for `chunksFrom`; the fuel is an upper bound on the
list length, so the zero-fuel branch is unreachable at the call site.
Structural recursion on the fuel keeps the definition kernel-evaluable. -/
def chunksFromFuel {α : Type} (bs : Nat) : Nat → Nat → List α → List (Nat × List α)
  | _, _, [] => []
  | 0, _, _ :: _ => []
  | fuel + 1, start, x :: xs =>
    if bs = 0 then []
    else (start, (x :: xs).take bs) :: chunksFromFuel bs fuel (start + bs) ((x :: xs).drop bs)

/-- `range(start, ...)` batching: the `(start, batch)` pairs produced by
`for start in range(0, len(l), bs): batch = l[start : start + bs]`.
For `bs = 0` Python's range would be empty; the source only uses 50 and 20. -/
def chunksFrom {α : Type} (bs : Nat) (start : Nat) (l : List α) : List (Nat × List α) :=
  chunksFromFuel bs l.length start l

/-- `defaultdict(float)` accumulation `d[k] += v`: keys keep first-insertion
order, values accumulate. -/
def dictAccum (d : List (Nat × ℚ)) (k : Nat) (v : ℚ) : List (Nat × ℚ) :=
  match d with
  | [] => [(k, v)]
  | (k', v') :: rest =>
    if k' = k then (k', v' + v) :: rest else (k', v') :: dictAccum rest k v

/-- `d.get(k, 0)` on an accumulated dict. -/
def dictGetQ (d : List (Nat × ℚ)) (k : Nat) : ℚ :=
  match d with
  | [] => 0
  | (k', v') :: rest => if k' = k then v' else dictGetQ rest k

/-- Python `dict` insertion `d[k] = v`: overwrite in place if the key exists,
append otherwise. -/
def pyDictInsert (d : List (Int × String)) (k : Int) (v : String) : List (Int × String) :=
  match d with
  | [] => [(k, v)]
  | (k', v') :: rest =>
    if k' = k then (k', v) :: rest else (k', v') :: pyDictInsert rest k v

/-- `d.get(k)` on an `int`-keyed dict. -/
def pyDictGet (d : List (Int × String)) (k : Int) : Option String :=
  match d with
  | [] => none
  | (k', v') :: rest => if k' = k then some v' else pyDictGet rest k

/-- The value of a call outcome, with a default for the raising case (used
to state decidable well-formedness conditions on oracle responses). -/
def exceptD {α : Type} (e : Except Unit α) (d : α) : α :=
  match e with
  | Except.ok v => v
  | Except.error _ => d

/-- Fail-fast effectful map, the shape of a Python list comprehension whose
body may raise. -/
def exceptMapM {α β : Type} (f : α → Except Unit β) : List α → Except Unit (List β)
  | [] => Except.ok []
  | a :: l =>
    match f a with
    | Except.error e => Except.error e
    | Except.ok b =>
      match exceptMapM f l with
      | Except.error e => Except.error e
      | Except.ok bs => Except.ok (b :: bs)

/-- Fail-fast effectful fold, the shape of a Python `for` loop over a list
whose body may raise while updating state. -/
def exceptFoldlM {σ α : Type} (f : σ → α → Except Unit σ) : σ → List α → Except Unit σ
  | s, [] => Except.ok s
  | s, a :: l =>
    match f s a with
    | Except.error e => Except.error e
    | Except.ok s1 => exceptFoldlM f s1 l

/-- `sorted(l, key := k, reverse := True)` / `l.sort(key := k, reverse := True)`:
CPython's sort is stable; on keys it is a stable descending sort, which an
insertion sort with relation `k b ≤ k a` realizes exactly. -/
def sortByDesc {α : Type} {β : Type} [LinearOrder β] (k : α → β) (l : List α) : List α :=
  l.insertionSort (fun a b => k b ≤ k a)

/-! ### Phase 1 dedup: `DedupStage._fingerprint_dedup` -/

/-- `len(a.content_text or "")`. -/
def contentLen (a : Article) : Nat := (a.content_text.getD "").length

/-- `DedupStage._fingerprint_dedup`: partition the input by fingerprint
(`dict.setdefault` keeps keys in first-appearance order and each partition in
input order), then in each partition sort by content length descending
(CPython stable sort) and take the head as primary.  The `none` branch of the
match is unreachable: every key has at least one matching article. -/
def fingerprint_dedup (articles : List Article) : List DedupGroup :=
  (dedupFirst (articles.map (fun a => a.fingerprint))).filterMap (fun fp =>
    match sortByDesc contentLen (articles.filter (fun a => a.fingerprint = fp)) with
    | [] => none
    | p :: rest => some { primary := p, duplicates := rest })

/-! ### `Article.generate_fingerprint` (`models.py`)

`hashlib.sha256(normalized.encode()).hexdigest()` is embedded as a full
SHA-256 over the UTF-8 bytes of the normalized string.  32-bit words are
`Nat` reduced modulo `2 ^ 32`. -/

/-- Truncate to a 32-bit word. -/
def w32 (x : Nat) : Nat := x % 4294967296

/-- Rotate a 32-bit word right by `n`. -/
def rotr32 (n x : Nat) : Nat := w32 ((x >>> n) ||| (x <<< (32 - n)))

/-- SHA-256 `Ch`. -/
def shaCh (x y z : Nat) : Nat := (x &&& y) ^^^ ((x ^^^ 4294967295) &&& z)

/-- SHA-256 `Maj`. -/
def shaMaj (x y z : Nat) : Nat := (x &&& y) ^^^ (x &&& z) ^^^ (y &&& z)

/-- SHA-256 Σ₀. -/
def bigSigma0 (x : Nat) : Nat := rotr32 2 x ^^^ rotr32 13 x ^^^ rotr32 22 x

/-- SHA-256 Σ₁. -/
def bigSigma1 (x : Nat) : Nat := rotr32 6 x ^^^ rotr32 11 x ^^^ rotr32 25 x

/-- SHA-256 σ₀. -/
def smallSigma0 (x : Nat) : Nat := rotr32 7 x ^^^ rotr32 18 x ^^^ (x >>> 3)

/-- SHA-256 σ₁. -/
def smallSigma1 (x : Nat) : Nat := rotr32 17 x ^^^ rotr32 19 x ^^^ (x >>> 10)

/-- SHA-256 round constants. -/
def shaK : List Nat :=
  [1116352408, 1899447441, 3049323471, 3921009573,
   961987163, 1508970993, 2453635748, 2870763221,
   3624381080, 310598401, 607225278, 1426881987,
   1925078388, 2162078206, 2614888103, 3248222580,
   3835390401, 4022224774, 264347078, 604807628,
   770255983, 1249150122, 1555081692, 1996064986,
   2554220882, 2821834349, 2952996808, 3210313671,
   3336571891, 3584528711, 113926993, 338241895,
   666307205, 773529912, 1294757372, 1396182291,
   1695183700, 1986661051, 2177026350, 2456956037,
   2730485921, 2820302411, 3259730800, 3345764771,
   3516065817, 3600352804, 4094571909, 275423344,
   430227734, 506948616, 659060556, 883997877,
   958139571, 1322822218, 1537002063, 1747873779,
   1955562222, 2024104815, 2227730452, 2361852424,
   2428436474, 2756734187, 3204031479, 3329325298]

/-- SHA-256 initial hash value. -/
def shaH0 : List Nat :=
  [1779033703, 3144134277, 1013904242, 2773480762,
   1359893119, 2600822924, 528734635, 1541459225]

/-- Big-endian bytes of a 64-bit length field. -/
def be64 (n : Nat) : List Nat :=
  [n >>> 56 % 256, n >>> 48 % 256, n >>> 40 % 256, n >>> 32 % 256,
   n >>> 24 % 256, n >>> 16 % 256, n >>> 8 % 256, n % 256]

/-- SHA-256 padding: append `0x80`, zero bytes to 56 mod 64, then the
big-endian 64-bit bit length. -/
def shaPad (msg : List Nat) : List Nat :=
  msg ++ [128] ++ List.replicate ((64 + 56 - ((msg.length + 1) % 64)) % 64) 0 ++
    be64 (msg.length * 8)

/-- Groups of four big-endian bytes to 32-bit words. -/
def bytesToWords : List Nat → List Nat
  | b0 :: b1 :: b2 :: b3 :: rest =>
    (((b0 * 256 + b1) * 256 + b2) * 256 + b3) :: bytesToWords rest
  | _ => []

/-- Message-schedule extension from 16 to 64 words. -/
def scheduleW (ws : List Nat) : List Nat :=
  (List.range 48).foldl (fun w _ =>
    let nLen := w.length
    w ++ [w32 (smallSigma1 (w.getD (nLen - 2) 0) + w.getD (nLen - 7) 0 +
      smallSigma0 (w.getD (nLen - 15) 0) + w.getD (nLen - 16) 0)]) ws

/-- One SHA-256 compression round over the eight working registers. -/
def shaRound (st : List Nat) (wk : Nat × Nat) : List Nat :=
  match st with
  | [a, b, c, d, e, f, g, h] =>
    let t1 := w32 (h + bigSigma1 e + shaCh e f g + wk.2 + wk.1)
    let t2 := w32 (bigSigma0 a + shaMaj a b c)
    [w32 (t1 + t2), a, b, c, w32 (d + t1), e, f, g]
  | _ => st

/-- Compress one 64-byte block into the running hash. -/
def shaCompress (h : List Nat) (block : List Nat) : List Nat :=
  let w := scheduleW (bytesToWords block)
  let s := (w.zip shaK).foldl shaRound h
  List.zipWith (fun x y => w32 (x + y)) h s

/-- The eight final words of SHA-256 over a byte string. -/
def sha256Words (msg : List Nat) : List Nat :=
  ((chunksFrom 64 0 (shaPad msg)).map (fun p => p.2)).foldl shaCompress shaH0

/-- One lowercase hex digit. -/
def hexChar (n : Nat) : Char :=
  if n < 10 then Char.ofNat (48 + n) else Char.ofNat (87 + n)

/-- Big-endian bytes of one 32-bit word. -/
def wordBytes (w : Nat) : List Nat :=
  [w >>> 24 % 256, w >>> 16 % 256, w >>> 8 % 256, w % 256]

/-- `hashlib.sha256(bytes).hexdigest()`. -/
def sha256hex (msg : List Nat) : String :=
  String.mk (((sha256Words msg).flatMap wordBytes).flatMap
    (fun b => [hexChar (b / 16), hexChar (b % 16)]))

/-- UTF-8 encoding of one code point (`str.encode()`). -/
def utf8Bytes (c : Char) : List Nat :=
  let n := c.toNat
  if n < 128 then [n]
  else if n < 2048 then [192 ||| (n >>> 6), 128 ||| (n &&& 63)]
  else if n < 65536 then
    [224 ||| (n >>> 12), 128 ||| ((n >>> 6) &&& 63), 128 ||| (n &&& 63)]
  else
    [240 ||| (n >>> 18), 128 ||| ((n >>> 12) &&& 63),
     128 ||| ((n >>> 6) &&& 63), 128 ||| (n &&& 63)]

/-- `s.encode()`: UTF-8 bytes of a string. -/
def strBytes (s : String) : List Nat := s.data.flatMap utf8Bytes

/-- Python whitespace as stripped by `str.strip()` (ASCII range; the inputs
in this development are ASCII). -/
def pyIsSpace (c : Char) : Bool :=
  c == ' ' || c == '\t' || c == '\n' || c == '\r' || c == Char.ofNat 11 || c == Char.ofNat 12

/-- `str.strip()` on the underlying character list: drop leading then
trailing whitespace. -/
def stripData (l : List Char) : List Char :=
  ((l.dropWhile pyIsSpace).reverse.dropWhile pyIsSpace).reverse

/-- `str.strip()`: drop leading then trailing whitespace. -/
def pyStrip (s : String) : String := String.mk (stripData s.data)

/-- `str.lower()` (ASCII case mapping; `Char.toLower` lowers `A`–`Z`). -/
def pyLower (s : String) : String := String.mk (s.data.map Char.toLower)

/-- `s[:n]` string slicing from the start. -/
def pyTake (n : Nat) (s : String) : String := String.mk (s.data.take n)

/-- The normalized string `f"{title.lower().strip()}:{content_text[:200].lower().strip()}"`
from `Article.generate_fingerprint`. -/
def fingerprintNormalized (title content_text : String) : String :=
  pyStrip (pyLower title) ++ ":" ++ pyStrip (pyLower (pyTake 200 content_text))

/-- `Article.generate_fingerprint`. -/
def generate_fingerprint (title content_text : String) : String :=
  sha256hex (strBytes (fingerprintNormalized title content_text))

/-- A string made only of Python whitespace characters. -/
def allSpace (s : String) : Prop := ∀ c ∈ s.data, pyIsSpace c = true

instance (s : String) : Decidable (allSpace s) := by
  unfold allSpace
  infer_instance

/-- Two strings equal up to letter case. -/
def lowerEq (s t : String) : Prop := s.data.map Char.toLower = t.data.map Char.toLower

instance (s t : String) : Decidable (lowerEq s t) := by
  unfold lowerEq
  infer_instance

/-! ### Statistical grouping: `GroupStage._tfidf_group` -/

/-- `group._STOP_WORDS`. -/
def STOP_WORDS : List String :=
  ["a", "an", "the", "is", "are", "was", "were", "be", "been", "being", "have",
   "has", "had", "do", "does", "did", "will", "would", "shall", "should",
   "may", "might", "can", "could", "of", "in", "to", "for", "on", "with",
   "at", "by", "from", "as", "into", "through", "during", "before", "after",
   "above", "below", "between", "out", "off", "over", "under", "again",
   "further", "then", "once", "here", "there", "when", "where", "why", "how",
   "all", "each", "every", "both", "few", "more", "most", "other", "some",
   "such", "no", "nor", "not", "only", "own", "same", "so", "than", "too",
   "very", "and", "but", "if", "or", "because", "until", "while", "about",
   "against"]

/-- Is `c` in `a`–`z`? -/
def isLowerAlpha (c : Char) : Bool := 'a' ≤ c && c ≤ 'z'

/-- Accumulate maximal runs of lowercase letters (`re.findall(r"[a-z]+", s)`);
`cur` holds the current run reversed. -/
def runsAux : List Char → List Char → List String
  | cur, [] => if cur.isEmpty then [] else [String.mk cur.reverse]
  | cur, c :: rest =>
    if isLowerAlpha c then runsAux (c :: cur) rest
    else if cur.isEmpty then runsAux [] rest
    else String.mk cur.reverse :: runsAux [] rest

/-- `GroupStage._tokenize`: lowercase, take maximal `[a-z]+` runs, drop stop
words and tokens of length ≤ 2. -/
def tokenize (text : String) : List String :=
  (runsAux [] (pyLower text).data).filter
    (fun w => !(STOP_WORDS.contains w) && decide (2 < w.length))

/-- `f"{a.title or ''} {a.content_text or ''}"`. -/
def docText (a : Article) : String := a.title ++ " " ++ a.content_text.getD ""

/-- `total = len(tokens) or 1`. -/
def tfDenom (tokens : List String) : Nat :=
  if tokens.length = 0 then 1 else tokens.length

/-- Document frequency of token `t` across the corpus. -/
def dfCount (docsTokens : List (List String)) (t : String) : Nat :=
  (docsTokens.filter (fun d => decide (t ∈ d))).length

/-- `tf * idf` with `idf = log((n + 1) / (df + 1)) + 1`; float arithmetic is
modelled as exact real arithmetic. -/
noncomputable def tfidfScore (n df count total : Nat) : ℝ :=
  ((count : ℝ) / (total : ℝ)) * (Real.log (((n : ℝ) + 1) / ((df : ℝ) + 1)) + 1)

/-- The score the source assigns to token `t` of a document. -/
noncomputable def docScore (docsTokens : List (List String)) (n : Nat)
    (tokens : List String) (t : String) : ℝ :=
  tfidfScore n (dfCount docsTokens t) (tokens.count t) (tfDenom tokens)

/-- `sorted(scored, key=scored.get, reverse=True)[:10]`: the document's
distinct tokens (dict-key order = first occurrence) stably sorted by score
descending, truncated to ten. -/
noncomputable def docKeywordList (docsTokens : List (List String)) (n : Nat)
    (tokens : List String) : List String :=
  (sortByDesc (docScore docsTokens n tokens) (dedupFirst tokens)).take 10

/-- `doc_keywords`: one keyword set (`set(top)`) per document. -/
noncomputable def docKeywords (articles : List Article) : List (Finset String) :=
  (articles.map (fun a => tokenize (docText a))).map (fun tokens =>
    (docKeywordList (articles.map (fun a => tokenize (docText a)))
      articles.length tokens).toFinset)

/-- `len(doc_keywords[i] & doc_keywords[j]) >= 2`. -/
noncomputable def sharedTest (kws : List (Finset String)) (i j : Nat) : Bool :=
  decide (2 ≤ ((kws.getD i ∅) ∩ (kws.getD j ∅)).card)

/-- The inner `for j in range(i + 1, n)` loop: scan the remaining indices,
skipping already-assigned ones, appending accepted ones to the cluster and to
the assigned set. -/
def innerScan (test : Nat → Nat → Bool) (i : Nat) :
    List Nat → List Nat → List Nat × List Nat
  | [], assigned => ([], assigned)
  | j :: js, assigned =>
    if j ∈ assigned then innerScan test i js assigned
    else if test i j then
      let r := innerScan test i js (assigned ++ [j])
      (j :: r.1, r.2)
    else innerScan test i js assigned

/-- The outer `for i in range(n)` loop of the greedy clustering. -/
def greedyGo (test : Nat → Nat → Bool) : List Nat → List Nat → List (List Nat)
  | [], _ => []
  | i :: rest, assigned =>
    if i ∈ assigned then greedyGo test rest assigned
    else
      (i :: (innerScan test i rest (assigned ++ [i])).1) ::
        greedyGo test rest (innerScan test i rest (assigned ++ [i])).2

/-- Modelled from the spec's words (§4.3 step 5): "Greedy single-pass
clustering, processing documents in their input order: for each
not-yet-assigned document i, open a new cluster seeded by i; scan all later
not-yet-assigned documents j and add j to the cluster if
`|keywords(i) ∩ keywords(j)| ≥ 2`", membership decided only against the
seed.  Here the not-yet-assigned documents are carried as the list itself. -/
def specGreedyClusters (test : Nat → Nat → Bool) : List Nat → List (List Nat)
  | [] => []
  | i :: rest =>
    (i :: rest.filter (fun j => test i j)) ::
      specGreedyClusters test (rest.filter (fun j => !(test i j)))
termination_by l => l.length
decreasing_by
  simp only [List.length_cons]
  exact Nat.lt_succ_of_le (List.length_filter_le _ _)

/-- Python `str.title()` restricted to ASCII: uppercase a letter that starts
a run of letters, lowercase the other letters; the flag tracks whether the
previous character was a letter. -/
def titleAux : Bool → List Char → List Char
  | _, [] => []
  | prevCased, c :: rest =>
    let cased := c.isAlpha
    let c' := if cased && !prevCased then c.toUpper else if cased then c.toLower else c
    c' :: titleAux cased rest

/-- `s.title()`. -/
def pyTitle (s : String) : String := String.mk (titleAux false s.data)

/-- `", ".join(sorted(kw)[:3]).title()`: ascending sort of the keyword set,
first three, comma-joined, title-cased. -/
def labelFrom (kw : Finset String) : String :=
  pyTitle (String.intercalate ", " ((kw.sort (fun a b => a ≤ b)).take 3))

/-- The topic label computed for one cluster: for multi-member clusters the
intersection of all members' keyword sets (falling back to the seed's set
when empty), otherwise the seed's own set. -/
def tfidfLabel (kws : List (Finset String)) (cluster : List Nat) : String :=
  match cluster with
  | [] => ""
  | i :: rest =>
    if rest.isEmpty then labelFrom (kws.getD i ∅)
    else
      let shared := rest.foldl (fun acc idx => acc ∩ kws.getD idx ∅) (kws.getD i ∅)
      labelFrom (if shared = ∅ then kws.getD i ∅ else shared)

/-- `GroupStage._tfidf_group`. -/
noncomputable def tfidf_group (articles : List Article) : List TopicGroup :=
  if articles = [] then []
  else
    (greedyGo (sharedTest (docKeywords articles)) (List.range articles.length) []).map
      (fun cluster =>
        { topic_label :=
            if tfidfLabel (docKeywords articles) cluster = "" then "General"
            else tfidfLabel (docKeywords articles) cluster,
          articles := cluster.map (fun idx => articles.getD idx dummyArticle),
          primary_index := 0,
          group_summary := none,
          article_summaries := [] })

/-! ### Phase 2 dedup: `DedupStage._semantic_dedup` and the LLM service

The enrichment oracle is injected as a function from the batch start offset
to the call's outcome; `Except.error` models the awaited call raising. -/

/-- Mutable state of `_semantic_dedup`: the `duplicates` list of each Phase-1
group indexed by group position (`primary_to_group` is keyed by the identity
of each group's distinct primary object, which resolves to the position),
plus `merged_indices`.  `merged_indices` stores the *raw* Python int
(`start + i`), so a negative alias of an index would not mark the canonical
position. -/
structure SemState where
  dups : List (List Article)
  merged : List Int
deriving DecidableEq, Repr

/-- `lead_group.duplicates.append(other_group.primary)` followed by
`lead_group.duplicates.extend(other_group.duplicates)`, with CPython
aliasing semantics: the extend source is read *after* the append, which
matters only when the lead is merged with itself. -/
def mergeOne (primaries : List Article) (leadPos : Nat) (st : SemState)
    (otherPos : Nat) : SemState :=
  let dups1 := st.dups.set leadPos
    ((st.dups.getD leadPos []) ++ [primaries.getD otherPos dummyArticle])
  { st with
    dups := dups1.set leadPos ((dups1.getD leadPos []) ++ (dups1.getD otherPos [])) }

/-- Apply one oracle duplicate group: `global_indices = [start + i ...]`,
`lead_idx = global_indices[0]` (IndexError on an empty group), resolve the
lead's group, then merge every other referenced group into it, recording the
raw merged index. -/
def applySemGroup (primaries : List Article) (start : Nat) (st : SemState)
    (semGroup : List Int) : Except Unit SemState :=
  match pyGetI (semGroup.map (fun i => (start : Int) + i)) 0 with
  | Except.error e => Except.error e
  | Except.ok leadIdx =>
    match pyIndex primaries.length leadIdx with
    | none => Except.error ()
    | some leadPos =>
      exceptFoldlM
        (fun st idx =>
          match pyIndex primaries.length idx with
          | none => Except.error ()
          | some otherPos =>
            Except.ok
              { mergeOne primaries leadPos st otherPos with
                merged := st.merged ++ [idx] })
        st ((semGroup.map (fun i => (start : Int) + i)).drop 1)

/-- The per-batch body of `_semantic_dedup`: a raised oracle call is caught
and leaves the state unchanged (`result = None`), as does an empty group
list; otherwise every returned group is applied in order. -/
def semBatchStep (oracle : Nat → Except Unit (List (List Int)))
    (primaries : List Article) (st : SemState) (p : Nat × List Article) :
    Except Unit SemState :=
  match oracle p.1 with
  | Except.error _ => Except.ok st
  | Except.ok gs =>
    if gs.isEmpty then Except.ok st
    else exceptFoldlM (applySemGroup primaries p.1) st gs

/-- The surviving groups after the merge loop: group `i` is kept when its
(raw) index was never merged. -/
def semFinalGroups (primaries : List Article) (st : SemState) : List DedupGroup :=
  (List.range primaries.length).filterMap (fun (i : Nat) =>
    if (Int.ofNat i) ∈ st.merged then none
    else some { primary := primaries.getD i dummyArticle,
                duplicates := st.dups.getD i [] })

/-- `DedupStage._semantic_dedup`: batch the Phase-1 primaries by 50, call the
oracle per batch, apply the returned groups, then keep each unmerged group
(with its accumulated duplicates) in order. -/
def semantic_dedup (oracle : Nat → Except Unit (List (List Int)))
    (groups : List DedupGroup) : Except Unit (List DedupGroup) :=
  if (groups.map (fun g => g.primary)).length ≤ 1 then Except.ok groups
  else
    match exceptFoldlM (semBatchStep oracle (groups.map (fun g => g.primary)))
        { dups := groups.map (fun g => g.duplicates), merged := [] }
        (chunksFrom 50 0 (groups.map (fun g => g.primary))) with
    | Except.error e => Except.error e
    | Except.ok st =>
      Except.ok (semFinalGroups (groups.map (fun g => g.primary)) st)

/-- The raw (already `start`-offset) indices referenced by all oracle
responses of a run, in processing order; used to state decidable
well-formedness of a dedup oracle. -/
def semResolved (oracle : Nat → Except Unit (List (List Int)))
    (primaries : List Article) : List Int :=
  (chunksFrom 50 0 primaries).flatMap (fun p =>
    (exceptD (oracle p.1) []).flatMap (fun g => g.map (fun i => (p.1 : Int) + i)))

/-- The multiset of articles held by the surviving groups of a dedup state:
group `i` contributes its primary and duplicates unless its index has been
merged away. -/
def semContentM (primaries : List Article) (st : SemState) : Multiset Article :=
  Finset.sum (Finset.range primaries.length) (fun i =>
    if Int.ofNat i ∈ st.merged then (0 : Multiset Article)
    else ((primaries.getD i dummyArticle :: st.dups.getD i []) : List Article))

/-- `DedupStage.dedup`: Phase-1 fingerprint dedup always; Phase 2 only on the
paid tier with an oracle configured. -/
def dedupStage (tier : UserTier)
    (oracle : Option (Nat → Except Unit (List (List Int))))
    (articles : List Article) : Except Unit (List DedupGroup) :=
  if articles = [] then Except.ok []
  else if tier = UserTier.paid ∧ oracle.isSome then
    semantic_dedup (oracle.getD (fun _ => Except.error ())) (fingerprint_dedup articles)
  else Except.ok (fingerprint_dedup articles)

/-- `for attempt in range(max_retries + 1)`: try the raw call, moving to the
next attempt on an exception; `none` when every attempt raised. -/
def retryCall {α : Type} (call : Nat → Except Unit α) : Nat → Nat → Option α
  | attempt, 0 =>
    match call attempt with
    | Except.ok v => some v
    | Except.error _ => none
  | attempt, remaining + 1 =>
    match call attempt with
    | Except.ok v => some v
    | Except.error _ => retryCall call (attempt + 1) remaining

/-- `LLMService.find_semantic_duplicates`: retries, keeps groups of size ≥ 2,
and returns an *empty* result — it never raises — when all attempts fail. -/
def find_semantic_duplicates (call : Nat → Except Unit (List (List Int)))
    (maxRetries : Nat) : List (List Int) :=
  match retryCall call 0 maxRetries with
  | some data => data.filter (fun g => 2 ≤ g.length)
  | none => []

/-- `LLMService.group_and_summarize`: retries; an empty `GroupingResult` when
all attempts fail. -/
def group_and_summarize (call : Nat → Except Unit (List GroupResultM))
    (maxRetries : Nat) : List GroupResultM :=
  (retryCall call 0 maxRetries).getD []

/-! ### Assisted grouping: `GroupStage._llm_group` -/

/-- Build one `TopicGroup` from an oracle group result:
`group_articles = [batch[i] for i in g.article_indices]` (IndexError
propagates), the batch-local `primary_index` remapped to a group-local
position (`.index` of the first occurrence, `0` when absent), and the
summary dict re-keyed the same way. -/
def mkLlmTopicGroup (batch : List Article) (g : GroupResultM) :
    Except Unit TopicGroup := do
  let arts ← exceptMapM (fun i => pyGetI batch i) g.article_indices
  Except.ok
    { topic_label := g.topic_label,
      articles := arts,
      primary_index :=
        if g.primary_index ∈ g.article_indices then
          g.article_indices.indexOf g.primary_index
        else 0,
      group_summary := some g.group_summary,
      article_summaries := g.article_summaries.foldl
        (fun d p =>
          pyDictInsert d
            (if p.1 ∈ g.article_indices then
              ((g.article_indices.indexOf p.1 : Nat) : Int)
            else p.1)
            p.2) [] }

/-- The batch loop of `_llm_group`: a raised call or an empty `groups` list
on any batch abandons the whole assisted result (`none`); a malformed index
while materializing a batch raises (`Except.error`). -/
def llm_group_batches (oracle : Nat → Except Unit (List GroupResultM)) :
    List (Nat × List Article) → Except Unit (Option (List TopicGroup))
  | [] => Except.ok (some [])
  | (start, batch) :: rest =>
    match oracle start with
    | Except.error _ => Except.ok none
    | Except.ok gs =>
      if gs.isEmpty then Except.ok none
      else do
        let tgs ← exceptMapM (mkLlmTopicGroup batch) gs
        let restRes ← llm_group_batches oracle rest
        match restRes with
        | none => Except.ok none
        | some more => Except.ok (some (tgs ++ more))

/-- `GroupStage._llm_group`: batches of 20. -/
def llm_group (oracle : Nat → Except Unit (List GroupResultM))
    (articles : List Article) : Except Unit (Option (List TopicGroup)) :=
  llm_group_batches oracle (chunksFrom 20 0 articles)

/-- `GroupStage.group`: on the paid tier with an oracle, use the assisted
result when it is non-`None` and non-empty (`if result:`), otherwise fall
back to the statistical grouping. -/
noncomputable def groupStage (tier : UserTier)
    (oracle : Option (Nat → Except Unit (List GroupResultM)))
    (dedup_groups : List DedupGroup) : Except Unit (List TopicGroup) :=
  if dedup_groups = [] then Except.ok []
  else if tier = UserTier.paid ∧ oracle.isSome then do
    let r ← llm_group (oracle.getD (fun _ => Except.error ()))
      (dedup_groups.map (fun g => g.primary))
    match r with
    | some gs =>
      if gs.isEmpty then Except.ok (tfidf_group (dedup_groups.map (fun g => g.primary)))
      else Except.ok gs
    | none => Except.ok (tfidf_group (dedup_groups.map (fun g => g.primary)))
  else Except.ok (tfidf_group (dedup_groups.map (fun g => g.primary)))

/-! ### Ranking: `RankStage` (`rank.py`) -/

/-- `rank.INTERACTION_WEIGHTS` with the `.get(type, 0)` default folded in:
the four declared kinds carry the dict's weights and there are no other
kinds.  Float weights are exact dyadic rationals. -/
def INTERACTION_WEIGHTS : InteractionType → ℚ
  | InteractionType.read => 1
  | InteractionType.tapped_through => 2
  | InteractionType.saved => 3
  | InteractionType.dismissed => -2

/-- `rank.PERSONALIZATION_DAMPEN = 0.5`. -/
def PERSONALIZATION_DAMPEN : ℚ := 1 / 2

/-- `a.published_at or a.created_at`. -/
def recencyKey (a : Article) : Int := a.published_at.getD a.created_at

/-- `group.articles.sort(key=..., reverse=True)`: the within-group member
sort the ranker applies to every group. -/
def sortMembers (g : TopicGroup) : TopicGroup :=
  { g with articles := sortByDesc recencyKey g.articles }

/-- `RankStage._base_rank`. -/
def base_rank (groups : List TopicGroup) : List TopicGroup :=
  sortByDesc (fun g => g.articles.length) groups

/-- The `article_scores` defaultdict accumulated over the user's interaction
rows. -/
def articleScores (interactions : List Interaction) : List (Nat × ℚ) :=
  interactions.foldl
    (fun d i => dictAccum d i.article_id (INTERACTION_WEIGHTS i.type)) []

/-- `RankStage._personalized_rank`: score each group as
`len(articles) + sum(article_scores.get(a.id, 0)) * 0.5`, sort the
`(score, idx, group)` triples by score (`key=lambda x: x[0]`, stable,
descending), and project the groups; an empty interaction history falls back
to `_base_rank`. -/
def personalized_rank (groups : List TopicGroup) (interactions : List Interaction) :
    List TopicGroup :=
  if interactions = [] then base_rank groups
  else
    (sortByDesc (fun t => t.1)
      (groups.enum.map (fun p =>
        ((p.2.articles.length : ℚ) +
          (p.2.articles.map (fun a => dictGetQ (articleScores interactions) a.id)).sum *
            PERSONALIZATION_DAMPEN,
         p.1, p.2)))).map (fun t => t.2.2)

/-- `RankStage.rank`: sort members within every group, then order the groups;
the presence of `db`/`user_id` (always supplied by the orchestrator) is
modelled by whether an interaction list is available. -/
def rankStage (groups : List TopicGroup) (tier : UserTier)
    (interactions : Option (List Interaction)) : List TopicGroup :=
  if groups = [] then []
  else if tier = UserTier.paid ∧ interactions.isSome then
    personalized_rank (groups.map sortMembers) (interactions.getD [])
  else base_rank (groups.map sortMembers)

/-- Modelled from the claim's words: an article's affinity is the sum of the
interaction weights over all of the user's records for that article. -/
def specAffinity (interactions : List Interaction) (aid : Nat) : ℚ :=
  ((interactions.filter (fun i => i.article_id = aid)).map
    (fun i => INTERACTION_WEIGHTS i.type)).sum

/-- Modelled from the claim's words: group score =
`member_count + 0.5 * Σ affinity(member)`. -/
def specGroupScore (interactions : List Interaction) (g : TopicGroup) : ℚ :=
  (g.articles.length : ℚ) +
    (1 / 2) * ((g.articles.map (fun a => specAffinity interactions a.id)).sum)

/-! ### Orchestrator (`orchestrator.py`) -/

/-- The record-building loop of `Orchestrator.generate`: one group row per
ranked group in rank order, one item row per member in item order, the
primary flag set on the item whose position equals `primary_index`, and the
per-item summary looked up by item position. -/
def materialize (tier : UserTier) (ranked : List TopicGroup) : DigestM :=
  { tier_at_creation := tier,
    groups := ranked.enum.map (fun p =>
      { topic_label := p.2.topic_label,
        sort_order := p.1,
        summary := p.2.group_summary,
        items := p.2.articles.enum.map (fun q =>
          { article_id := q.2.id,
            sort_order := q.1,
            ai_summary := pyDictGet p.2.article_summaries (q.1 : Int),
            is_primary := decide (q.1 = p.2.primary_index) }) }) }

/-- `Orchestrator.generate` with the external collaborators abstracted: the
collected articles and the user's interaction rows are inputs, and the two
oracle capabilities are optional.  `none` is the "no digest" outcome. -/
noncomputable def generate (articles : List Article)
    (interactions : Option (List Interaction)) (tier : UserTier)
    (dedupOracle : Option (Nat → Except Unit (List (List Int))))
    (groupOracle : Option (Nat → Except Unit (List GroupResultM))) :
    Except Unit (Option DigestM) :=
  if articles = [] then Except.ok none
  else
    match dedupStage tier dedupOracle articles with
    | Except.error e => Except.error e
    | Except.ok dg =>
      if dg = [] then Except.ok none
      else
        match groupStage tier groupOracle dg with
        | Except.error e => Except.error e
        | Except.ok tgs =>
          if tgs = [] then Except.ok none
          else Except.ok (some (materialize tier (rankStage tgs tier interactions)))

/-! ### Concrete fixtures used by witnesses and counterexamples -/

/-- Ten characters of content, fingerprint shared with `artFpLong`. -/
def artFpShort : Article :=
  { id := 1, title := "story", content_text := some "shortbody0",
    published_at := none, created_at := 0, fingerprint := "fp1" }

/-- Fifty characters of content, fingerprint shared with `artFpShort`. -/
def artFpLong : Article :=
  { id := 2, title := "story", content_text := some
      "longbody0plentyofcharactershere0123456789abcdefghi",
    published_at := none, created_at := 1, fingerprint := "fp1" }

/-- A 201-character content string: long enough that the 200-character prefix
window of `generate_fingerprint` truncates it. -/
def longContent201 : String := String.mk (List.replicate 201 'a')

/-- Single saved article for the personalized-ranking witness. -/
def artRank1 : Article :=
  { id := 21, title := "solo", content_text := some "solo body",
    published_at := some 50, created_at := 0, fingerprint := "r1" }

/-- First member of the two-article group. -/
def artRank2 : Article :=
  { id := 22, title := "pair one", content_text := some "pair body one",
    published_at := some 60, created_at := 0, fingerprint := "r2" }

/-- Second member of the two-article group; no publish timestamp. -/
def artRank3 : Article :=
  { id := 23, title := "pair two", content_text := some "pair body two",
    published_at := none, created_at := 40, fingerprint := "r3" }

/-- One-article topic group. -/
def tgSolo : TopicGroup :=
  { topic_label := "Solo", articles := [artRank1], primary_index := 0,
    group_summary := none, article_summaries := [] }

/-- Two-article topic group. -/
def tgPair : TopicGroup :=
  { topic_label := "Pair", articles := [artRank2, artRank3], primary_index := 0,
    group_summary := none, article_summaries := [] }

/-- One `saved` interaction on `artRank1`. -/
def interactionsSaved : List Interaction :=
  [{ article_id := 21, type := InteractionType.saved }]

/-- An oracle topic group with an empty index list. -/
def emptyIdxResponse : GroupResultM :=
  { topic_label := "T", article_indices := [], primary_index := 0,
    group_summary := "", article_summaries := [] }

/-- An oracle topic group naming only batch index 0. -/
def singleIdxResponse : GroupResultM :=
  { topic_label := "T", article_indices := [0], primary_index := 0,
    group_summary := "", article_summaries := [] }

/-- An oracle topic group referencing batch index 5, outside a two-article
batch. -/
def oobIdxResponse : GroupResultM :=
  { topic_label := "T", article_indices := [0, 5], primary_index := 0,
    group_summary := "", article_summaries := [] }

/-- An oracle topic group covering batch indices 0 and 1 with primary 0. -/
def pairIdxResponse : GroupResultM :=
  { topic_label := "T", article_indices := [0, 1], primary_index := 0,
    group_summary := "", article_summaries := [] }

/-- The `TopicGroup` the grouper builds from `emptyIdxResponse`. -/
def emptyTopicGroup : TopicGroup :=
  { topic_label := "T", articles := [], primary_index := 0,
    group_summary := some "", article_summaries := [] }

/-- The `TopicGroup` the grouper builds from `singleIdxResponse` on
`[artRank1]`. -/
def singleTopicGroup : TopicGroup :=
  { topic_label := "T", articles := [artRank1], primary_index := 0,
    group_summary := some "", article_summaries := [] }

/-- A Phase-1 dedup group with `artRank1` as primary and no duplicates. -/
def dgRank1 : DedupGroup := { primary := artRank1, duplicates := [] }

/-- A Phase-1 dedup group with `artRank2` as primary and no duplicates. -/
def dgRank2 : DedupGroup := { primary := artRank2, duplicates := [] }

/-- Older article (published at 5), designated primary by the grouper. -/
def artC3a : Article :=
  { id := 31, title := "older", content_text := some "older body",
    published_at := some 5, created_at := 0, fingerprint := "c1" }

/-- Newer article (published at 10). -/
def artC3b : Article :=
  { id := 32, title := "newer", content_text := some "newer body",
    published_at := some 10, created_at := 0, fingerprint := "c2" }

/-- Input pool for the primary-flag run: older article first. -/
def c3Articles : List Article := [artC3a, artC3b]

/-- The `TopicGroup` the assisted grouper builds for `c3Articles` from
`pairIdxResponse`: members in batch order, `primary_index = 0` designating
the older article. -/
def c3Group : TopicGroup :=
  { topic_label := "T", articles := [artC3a, artC3b], primary_index := 0,
    group_summary := some "", article_summaries := [] }

/-- The digest the orchestrator materializes for the primary-flag run: the
ranker has re-sorted the members newest-first, and the flag lands on the
newer article (id 32), not on the designated primary (id 31). -/
def c3ExpectedDigest : DigestM :=
  { tier_at_creation := UserTier.paid,
    groups := [
      { topic_label := "T", sort_order := 0, summary := some "",
        items := [
          { article_id := 32, sort_order := 0, ai_summary := none,
            is_primary := true },
          { article_id := 31, sort_order := 1, ai_summary := none,
            is_primary := false }] }] }

/-! ### Stable-sort lemmas -/

theorem sortByDesc_perm {α β : Type} [LinearOrder β] (k : α → β) (l : List α) :
    List.Perm (sortByDesc k l) l :=
  List.perm_insertionSort _ l

theorem sortByDesc_sorted {α β : Type} [LinearOrder β] (k : α → β) (l : List α) :
    (sortByDesc k l).Pairwise (fun a b => k b ≤ k a) := by
  have ht : IsTotal α (fun a b => k b ≤ k a) := ⟨fun a b => le_total (k b) (k a)⟩
  have htr : IsTrans α (fun a b => k b ≤ k a) := ⟨fun _ _ _ h₁ h₂ => le_trans h₂ h₁⟩
  exact List.sorted_insertionSort _ l

theorem filter_orderedInsert_of_key {α β : Type} [LinearOrder β] (k : α → β) (c : β)
    (a : α) (l : List α) :
    (l.orderedInsert (fun x y => k y ≤ k x) a).filter (fun x => k x = c) =
      if k a = c then a :: l.filter (fun x => k x = c)
      else l.filter (fun x => k x = c) := by
  induction l with
  | nil =>
    by_cases h : k a = c <;> simp [List.orderedInsert, h]
  | cons b t ih =>
    simp only [List.orderedInsert]
    by_cases hle : k b ≤ k a
    · rw [if_pos hle]
      by_cases h : k a = c
      · rw [if_pos h]
        simp only [List.filter_cons, decide_eq_true_eq, if_pos h]
      · rw [if_neg h]
        simp only [List.filter_cons, decide_eq_true_eq, if_neg h]
    · rw [if_neg hle]
      by_cases hb : k b = c
      · have h : ¬ k a = c := by
          intro hac
          exact hle (le_of_eq (hb.trans hac.symm))
        rw [if_neg h]
        simp only [List.filter_cons, decide_eq_true_eq, if_pos hb, ih, if_neg h]
      · by_cases h : k a = c
        · rw [if_pos h]
          simp only [List.filter_cons, decide_eq_true_eq, if_neg hb, ih, if_pos h]
        · rw [if_neg h]
          simp only [List.filter_cons, decide_eq_true_eq, if_neg hb, ih, if_neg h]

/-- Stability of `sortByDesc`: for every key value `c`, the subsequence of
elements whose key is `c` is unchanged, i.e. ties keep their input order. -/
theorem sortByDesc_filter_key {α β : Type} [LinearOrder β] (k : α → β) (c : β) (l : List α) :
    (sortByDesc k l).filter (fun x => k x = c) = l.filter (fun x => k x = c) := by
  induction l with
  | nil => rfl
  | cons a t ih =>
    simp only [sortByDesc] at ih
    show ((t.insertionSort _).orderedInsert _ a).filter _ = _
    rw [filter_orderedInsert_of_key k c a (t.insertionSort _)]
    by_cases h : k a = c
    · rw [if_pos h]
      simp only [List.filter_cons, decide_eq_true_eq, if_pos h, ih]
    · rw [if_neg h]
      simp only [List.filter_cons, decide_eq_true_eq, if_neg h, ih]

/-- The head of a stable descending sort has a maximal key. -/
theorem sortByDesc_head_max {α β : Type} [LinearOrder β] (k : α → β) (l : List α)
    (p : α) (rest : List α) (h : sortByDesc k l = p :: rest) :
    ∀ a ∈ l, k a ≤ k p := by
  intro a ha
  have hmem : a ∈ sortByDesc k l := ((sortByDesc_perm k l).mem_iff).mpr ha
  rw [h, List.mem_cons] at hmem
  rcases hmem with rfl | hmem
  · exact le_refl _
  · have hs := sortByDesc_sorted k l
    rw [h, List.pairwise_cons] at hs
    exact hs.1 a hmem

/-- The head of a stable descending sort is the earliest input element whose
key attains the maximum. -/
theorem sortByDesc_head_tie {α β : Type} [LinearOrder β] (k : α → β) (l : List α)
    (p : α) (rest : List α) (h : sortByDesc k l = p :: rest) :
    (l.filter (fun a => k a = k p)).head? = some p := by
  have hst := sortByDesc_filter_key k (k p) l
  rw [h] at hst
  simp only [List.filter_cons, decide_eq_true_eq, if_pos rfl] at hst
  rw [← hst]
  rfl

/-- Any group produced by `fingerprint_dedup` is the head/tail of the stable
descending-by-content-length sort of the fingerprint partition it represents. -/
theorem mem_fingerprint_dedup (articles : List Article) (g : DedupGroup)
    (hg : g ∈ fingerprint_dedup articles) :
    sortByDesc contentLen
        (articles.filter (fun a => a.fingerprint = g.primary.fingerprint)) =
      g.primary :: g.duplicates := by
  rw [fingerprint_dedup, List.mem_filterMap] at hg
  obtain ⟨fp, _, hfp⟩ := hg
  rcases hs : sortByDesc contentLen (articles.filter (fun a => a.fingerprint = fp)) with
    _ | ⟨p, rest⟩
  · rw [hs] at hfp
    exact absurd hfp (by simp)
  · rw [hs] at hfp
    simp only [Option.some.injEq] at hfp
    have hp : g.primary = p := by rw [← hfp]
    have hd : g.duplicates = rest := by rw [← hfp]
    have hpfp : p.fingerprint = fp := by
      have hmem : p ∈ sortByDesc contentLen (articles.filter (fun a => a.fingerprint = fp)) := by
        rw [hs]; exact List.mem_cons_self _ _
      have := ((sortByDesc_perm _ _).mem_iff).mp hmem
      exact of_decide_eq_true (List.mem_filter.mp this).2
    rw [hp, hd, hpfp, hs]

/-- C5: For every fingerprint partition produced by Phase-1 dedup, the chosen
primary is a member of that partition whose content text length is maximal,
among members tied at that length it is the earliest-encountered one in input
order, and the partition's other members are exactly its duplicates. -/
theorem C5_fingerprint_primary (articles : List Article) (g : DedupGroup)
    (hg : g ∈ fingerprint_dedup articles) :
    List.Perm (g.primary :: g.duplicates)
        (articles.filter (fun a => a.fingerprint = g.primary.fingerprint)) ∧
    (∀ a ∈ articles.filter (fun a => a.fingerprint = g.primary.fingerprint),
        contentLen a ≤ contentLen g.primary) ∧
    ((articles.filter (fun a => a.fingerprint = g.primary.fingerprint)).filter
        (fun a => contentLen a = contentLen g.primary)).head? = some g.primary := by
  have hs := mem_fingerprint_dedup articles g hg
  refine ⟨?_, ?_, ?_⟩
  · exact hs ▸ sortByDesc_perm contentLen _
  · exact sortByDesc_head_max contentLen _ g.primary g.duplicates hs
  · exact sortByDesc_head_tie contentLen _ g.primary g.duplicates hs

/-- Witness for C5 at a concrete two-article partition (content lengths 10
and 50): the 50-char article is primary, the 10-char one its duplicate. -/
theorem C5_fingerprint_primary_witness :
    ((⟨artFpLong, [artFpShort]⟩ : DedupGroup) ∈ fingerprint_dedup [artFpShort, artFpLong]) ∧
    (List.Perm (artFpLong :: [artFpShort])
        ([artFpShort, artFpLong].filter (fun a => a.fingerprint = artFpLong.fingerprint)) ∧
    (∀ a ∈ [artFpShort, artFpLong].filter (fun a => a.fingerprint = artFpLong.fingerprint),
        contentLen a ≤ contentLen artFpLong) ∧
    (([artFpShort, artFpLong].filter (fun a => a.fingerprint = artFpLong.fingerprint)).filter
        (fun a => contentLen a = contentLen artFpLong)).head? = some artFpLong) :=
  ⟨by decide, C5_fingerprint_primary [artFpShort, artFpLong] ⟨artFpLong, [artFpShort]⟩ (by decide)⟩

theorem dropWhile_append_all {p : Char → Bool} (a x : List Char)
    (ha : ∀ c ∈ a, p c = true) : (a ++ x).dropWhile p = x.dropWhile p := by
  induction a with
  | nil => rfl
  | cons c a ih =>
    have hc : p c = true := ha c (List.mem_cons_self _ _)
    simp only [List.cons_append, List.dropWhile_cons, hc, if_true]
    exact ih (fun d hd => ha d (List.mem_cons_of_mem _ hd))

/-- Surrounding whitespace does not affect `str.strip()`. -/
theorem stripData_surround (a x b : List Char)
    (ha : ∀ c ∈ a, pyIsSpace c = true) (hb : ∀ c ∈ b, pyIsSpace c = true) :
    stripData (a ++ (x ++ b)) = stripData x := by
  unfold stripData
  rw [dropWhile_append_all a (x ++ b) ha]
  rcases hx : x.dropWhile pyIsSpace with _ | ⟨y, ys⟩
  · have hxall : ∀ c ∈ x, pyIsSpace c = true := List.dropWhile_eq_nil_iff.mp hx
    rw [dropWhile_append_all x b hxall, List.dropWhile_eq_nil_iff.mpr hb]
  · rw [List.dropWhile_append, hx]
    simp only [List.isEmpty_cons, Bool.false_eq_true, if_false, ite_false]
    rw [List.reverse_append]
    rw [dropWhile_append_all _ _ (fun c hc => hb c (List.mem_reverse.mp hc))]

theorem toLower_space {c : Char} (h : pyIsSpace c = true) : Char.toLower c = c := by
  simp only [pyIsSpace, Bool.or_eq_true, beq_iff_eq] at h
  rcases h with ((((h | h) | h) | h) | h) | h <;> subst h <;> decide

theorem map_toLower_space (a : List Char) (ha : ∀ c ∈ a, pyIsSpace c = true) :
    ∀ c ∈ a.map Char.toLower, pyIsSpace c = true := by
  intro c hc
  rcases List.mem_map.mp hc with ⟨d, hd, rfl⟩
  rw [toLower_space (ha d hd)]
  exact ha d hd

theorem strip_lower_surround (w₁ s w₂ s₀ : String) (hw₁ : allSpace w₁) (hw₂ : allSpace w₂)
    (hs : lowerEq s s₀) :
    pyStrip (pyLower (w₁ ++ s ++ w₂)) = pyStrip (pyLower s₀) := by
  unfold pyStrip pyLower
  congr 1
  show stripData (((w₁ ++ s ++ w₂).data).map Char.toLower) = stripData (s₀.data.map Char.toLower)
  rw [String.data_append, String.data_append]
  rw [List.map_append, List.map_append, List.append_assoc]
  rw [stripData_surround _ _ _ (map_toLower_space _ hw₁) (map_toLower_space _ hw₂)]
  rw [hs]

theorem lowerEq_take (n : Nat) (s t : String) (h : lowerEq s t) :
    lowerEq (pyTake n s) (pyTake n t) := by
  show (s.data.take n).map Char.toLower = (t.data.take n).map Char.toLower
  rw [List.map_take, List.map_take, h]

theorem strip_lower_eq (s t : String) (h : lowerEq s t) :
    pyStrip (pyLower s) = pyStrip (pyLower t) := by
  unfold pyStrip pyLower
  congr 1
  show stripData (s.data.map Char.toLower) = stripData (t.data.map Char.toLower)
  rw [h]

/-- C9 (amended): fingerprint generation depends only on the normalized
(title, content) pair — so it is deterministic; changing letter case
anywhere (title or content) and adding surrounding whitespace to the title
never change the fingerprint, for content of any length; adding surrounding
whitespace to the content also leaves it unchanged *provided* the
whitespace-padded content still fits within the 200-character prefix window
(`content_text[:200]` is taken before `strip()`, so whitespace that pushes
content past 200 characters shifts the window; see the counterexample). -/
theorem C9_fingerprint_invariance
    (t c t' c' w₁ w₂ v₁ v₂ : String)
    (hw₁ : allSpace w₁) (hw₂ : allSpace w₂) (hv₁ : allSpace v₁) (hv₂ : allSpace v₂)
    (ht : lowerEq t' t) (hc : lowerEq c' c) :
    (∀ t₁ c₁ t₂ c₂ : String, fingerprintNormalized t₁ c₁ = fingerprintNormalized t₂ c₂ →
      generate_fingerprint t₁ c₁ = generate_fingerprint t₂ c₂) ∧
    generate_fingerprint (w₁ ++ t' ++ w₂) c' = generate_fingerprint t c ∧
    ((v₁ ++ c' ++ v₂).length ≤ 200 →
      generate_fingerprint (w₁ ++ t' ++ w₂) (v₁ ++ c' ++ v₂) = generate_fingerprint t c) := by
  refine ⟨?_, ?_, ?_⟩
  · intro t₁ c₁ t₂ c₂ h
    unfold generate_fingerprint
    rw [h]
  · unfold generate_fingerprint
    congr 1
    unfold fingerprintNormalized
    rw [strip_lower_surround w₁ t' w₂ t hw₁ hw₂ ht,
      strip_lower_eq (pyTake 200 c') (pyTake 200 c) (lowerEq_take 200 c' c hc)]
  · intro hlen
    have hclen : c.length ≤ 200 := by
      have h1 : c'.data.length = c.data.length := by
        have := congrArg List.length hc
        simpa using this
      have h2 : c'.length ≤ (v₁ ++ c' ++ v₂).length := by
        rw [String.length_append, String.length_append]
        omega
      have h3 : c'.length = c.length := h1
      omega
    have htake₁ : pyTake 200 (v₁ ++ c' ++ v₂) = v₁ ++ c' ++ v₂ := by
      unfold pyTake
      rw [List.take_of_length_le (by exact hlen)]
    have htake₂ : pyTake 200 c = c := by
      unfold pyTake
      rw [List.take_of_length_le (by exact hclen)]
    unfold generate_fingerprint
    congr 1
    unfold fingerprintNormalized
    rw [htake₁, htake₂]
    rw [strip_lower_surround w₁ t' w₂ t hw₁ hw₂ ht]
    rw [strip_lower_surround v₁ c' v₂ c hv₁ hv₂ hc]

/-- Witness for the amended C9 at concrete strings: case change and title
whitespace, both on short content and on 201-character content (past the
prefix window), plus content whitespace with the padded content within 200
characters. -/
theorem C9_fingerprint_invariance_witness :
    allSpace " " ∧ allSpace "" ∧ lowerEq "ABC" "abc" ∧ lowerEq "Xy" "xy" ∧
    lowerEq longContent201 longContent201 ∧
    generate_fingerprint (" " ++ "ABC" ++ "") "Xy" = generate_fingerprint "abc" "xy" ∧
    generate_fingerprint (" " ++ "ABC" ++ "") longContent201 =
      generate_fingerprint "abc" longContent201 ∧
    ((("" : String) ++ "Xy" ++ " ").length ≤ 200 ∧
      generate_fingerprint (" " ++ "ABC" ++ "") ("" ++ "Xy" ++ " ") =
        generate_fingerprint "abc" "xy") :=
  ⟨by decide, by decide, by decide, by decide,
   by set_option maxRecDepth 10000 in decide,
   (C9_fingerprint_invariance "abc" "xy" "ABC" "Xy" " " "" "" " "
     (by decide) (by decide) (by decide) (by decide) (by decide) (by decide)).2.1,
   (C9_fingerprint_invariance "abc" longContent201 "ABC" longContent201 " " "" "" ""
     (by decide) (by decide) (by decide) (by decide) (by decide)
     (by set_option maxRecDepth 10000 in decide)).2.1,
   by decide,
   (C9_fingerprint_invariance "abc" "xy" "ABC" "Xy" " " "" "" " "
     (by decide) (by decide) (by decide) (by decide) (by decide) (by decide)).2.2
     (by decide)⟩

/-- C9 counterexample: for content longer than 200 characters, adding a
leading space shifts the `[:200]` window and changes the fingerprint, so the
claim that surrounding whitespace never affects the fingerprint is false as
stated. -/
theorem C9_counterexample :
    generate_fingerprint "t" (" " ++ longContent201) ≠
      generate_fingerprint "t" longContent201 := by
  set_option maxRecDepth 10000 in decide

theorem innerScan_eq (test : Nat → Nat → Bool) (i : Nat) (l : List Nat) :
    ∀ assigned : List Nat, l.Nodup →
      innerScan test i l assigned =
        (l.filter (fun j => !(decide (j ∈ assigned)) && test i j),
         assigned ++ l.filter (fun j => !(decide (j ∈ assigned)) && test i j)) := by
  induction l with
  | nil =>
    intro assigned _
    simp [innerScan]
  | cons j js ih =>
    intro assigned hnd
    have hjnotin : j ∉ js := (List.nodup_cons.mp hnd).1
    have hjsnd : js.Nodup := (List.nodup_cons.mp hnd).2
    by_cases hj : j ∈ assigned
    · have hpj : (!(decide (j ∈ assigned)) && test i j) = false := by
        simp [hj]
      rw [innerScan, if_pos hj, ih assigned hjsnd]
      simp only [List.filter_cons, hpj, Bool.false_eq_true, if_false, ite_false]
    · by_cases ht : test i j = true
      · have hpj : (!(decide (j ∈ assigned)) && test i j) = true := by
          simp [hj, ht]
        have hfcong : js.filter (fun x => !(decide (x ∈ assigned ++ [j])) && test i x) =
            js.filter (fun x => !(decide (x ∈ assigned)) && test i x) := by
          apply List.filter_congr
          intro x hx
          have hxj : x ≠ j := fun h => hjnotin (h ▸ hx)
          simp [List.mem_append, hxj]
        rw [innerScan, if_neg hj, if_pos ht, ih (assigned ++ [j]) hjsnd, hfcong]
        simp only [List.filter_cons, hpj, if_true, ite_true]
        rw [List.append_assoc]
        rfl
      · have hpj : (!(decide (j ∈ assigned)) && test i j) = false := by
          simp [hj, ht]
        rw [innerScan, if_neg hj, if_neg ht, ih assigned hjsnd]
        simp only [List.filter_cons, hpj, Bool.false_eq_true, if_false, ite_false]

theorem greedyGo_eq_spec (test : Nat → Nat → Bool) (l : List Nat) :
    ∀ assigned : List Nat, l.Nodup →
      greedyGo test l assigned =
        specGreedyClusters test (l.filter (fun j => !(decide (j ∈ assigned)))) := by
  induction l with
  | nil =>
    intro assigned _
    simp [greedyGo, specGreedyClusters]
  | cons i rest ih =>
    intro assigned hnd
    have hinotin : i ∉ rest := (List.nodup_cons.mp hnd).1
    have hrestnd : rest.Nodup := (List.nodup_cons.mp hnd).2
    by_cases hi : i ∈ assigned
    · have hpi : (!(decide (i ∈ assigned))) = false := by simp [hi]
      rw [greedyGo, if_pos hi, ih assigned hrestnd]
      simp only [List.filter_cons, hpi, Bool.false_eq_true, if_false, ite_false]
    · have hpi : (!(decide (i ∈ assigned))) = true := by simp [hi]
      have hscan := innerScan_eq test i rest (assigned ++ [i]) hrestnd
      have hfcongF : rest.filter (fun x => !(decide (x ∈ assigned ++ [i])) && test i x) =
          rest.filter (fun x => !(decide (x ∈ assigned)) && test i x) := by
        apply List.filter_congr
        intro x hx
        have hxi : x ≠ i := fun h => hinotin (h ▸ hx)
        simp [List.mem_append, hxi]
      rw [greedyGo, if_neg hi, hscan, hfcongF]
      rw [ih _ hrestnd]
      have hrec : rest.filter (fun j => !(decide (j ∈
            (assigned ++ [i]) ++ rest.filter (fun x => !(decide (x ∈ assigned)) && test i x)))) =
          rest.filter (fun j => (!(decide (j ∈ assigned))) && !(test i j)) := by
        apply List.filter_congr
        intro x hx
        have hxi : x ≠ i := fun h => hinotin (h ▸ hx)
        by_cases hxa : x ∈ assigned
        · simp [List.mem_append, hxa]
        · by_cases hxt : test i x = true
          · have hxF : x ∈ rest.filter (fun y => !(decide (y ∈ assigned)) && test i y) :=
              List.mem_filter.mpr ⟨hx, by simp [hxa, hxt]⟩
            simp [List.mem_append, hxa, hxt, hxF]
          · have hxF : x ∉ rest.filter (fun y => !(decide (y ∈ assigned)) && test i y) := by
              intro hmem
              have := (List.mem_filter.mp hmem).2
              simp [hxa, hxt] at this
            simp [List.mem_append, hxa, hxt, hxi, hxF]
      rw [hrec]
      have hspec : specGreedyClusters test ((i :: rest).filter (fun j => !(decide (j ∈ assigned)))) =
          (i :: (rest.filter (fun j => !(decide (j ∈ assigned)))).filter (fun j => test i j)) ::
            specGreedyClusters test
              ((rest.filter (fun j => !(decide (j ∈ assigned)))).filter (fun j => !(test i j))) := by
        have hstep : (i :: rest).filter (fun j => !(decide (j ∈ assigned))) =
            i :: rest.filter (fun j => !(decide (j ∈ assigned))) := by
          simp only [List.filter_cons, hpi, if_true, ite_true]
        rw [hstep, specGreedyClusters]
      rw [hspec, List.filter_filter, List.filter_filter]
      congr 2
      · apply List.filter_congr
        intro x _
        rw [Bool.and_comm]
      · apply List.filter_congr
        intro x _
        rw [Bool.and_comm]

theorem mem_dedupFirstAux {α : Type} [DecidableEq α] (x : α) :
    ∀ (l seen : List α), x ∈ dedupFirstAux seen l ↔ (x ∈ l ∧ x ∉ seen) := by
  intro l
  induction l with
  | nil =>
    intro seen
    simp [dedupFirstAux]
  | cons a t ih =>
    intro seen
    by_cases ha : a ∈ seen
    · rw [dedupFirstAux, if_pos ha, ih]
      constructor
      · rintro ⟨hx, hns⟩
        exact ⟨List.mem_cons_of_mem _ hx, hns⟩
      · rintro ⟨hx, hns⟩
        rcases List.mem_cons.mp hx with rfl | hx
        · exact absurd ha hns
        · exact ⟨hx, hns⟩
    · rw [dedupFirstAux, if_neg ha, List.mem_cons, ih]
      constructor
      · rintro (rfl | ⟨hx, hns⟩)
        · exact ⟨List.mem_cons_self _ _, ha⟩
        · exact ⟨List.mem_cons_of_mem _ hx,
            fun hmem => hns (List.mem_append.mpr (Or.inl hmem))⟩
      · rintro ⟨hx, hns⟩
        by_cases hxa : x = a
        · exact Or.inl hxa
        · rcases List.mem_cons.mp hx with rfl | hx
          · exact absurd rfl hxa
          · refine Or.inr ⟨hx, fun hmem => ?_⟩
            rcases List.mem_append.mp hmem with h | h
            · exact hns h
            · exact hxa (List.mem_singleton.mp h)

theorem mem_dedupFirst {α : Type} [DecidableEq α] {x : α} {l : List α} :
    x ∈ dedupFirst l ↔ x ∈ l := by
  rw [dedupFirst, mem_dedupFirstAux]
  simp

theorem specGreedyClusters_join_perm_fuel (test : Nat → Nat → Bool) :
    ∀ (n : Nat) (l : List Nat), l.length ≤ n →
      List.Perm (specGreedyClusters test l).join l := by
  intro n
  induction n with
  | zero =>
    intro l hl
    have hnil : l = [] := List.eq_nil_of_length_eq_zero (Nat.le_zero.mp hl)
    subst hnil
    simp [specGreedyClusters]
  | succ n ih =>
    intro l hl
    match l with
    | [] => simp [specGreedyClusters]
    | i :: rest =>
      rw [specGreedyClusters]
      simp only [List.join_cons, List.cons_append]
      refine List.Perm.cons i ?_
      have hG : (rest.filter (fun j => !(test i j))).length ≤ n := by
        have h1 := List.length_filter_le (fun j => !(test i j)) rest
        have h2 : rest.length ≤ n := by
          simpa using Nat.succ_le_succ_iff.mp (by simpa using hl)
        omega
      exact ((ih _ hG).append_left _).trans (List.filter_append_perm _ rest)

theorem specGreedyClusters_join_perm (test : Nat → Nat → Bool) (l : List Nat) :
    List.Perm (specGreedyClusters test l).join l :=
  specGreedyClusters_join_perm_fuel test l.length l (le_refl _)

theorem map_getD_range {α : Type} (d : α) (l : List α) :
    (List.range l.length).map (fun i => l.getD i d) = l := by
  induction l with
  | nil => rfl
  | cons a t ih =>
    rw [List.length_cons, List.range_succ_eq_map]
    simp only [List.map_cons, List.map_map]
    congr 1

/-- Everything kept by the `take m` of a stable descending sort scores at
least as high as anything not kept. -/
theorem sortByDesc_take_dominates {α β : Type} [LinearOrder β] (k : α → β)
    (l : List α) (m : Nat) :
    ∀ x ∈ (sortByDesc k l).take m, ∀ y ∈ l, y ∉ (sortByDesc k l).take m →
      k y ≤ k x := by
  intro x hx y hy hyn
  have hys : y ∈ sortByDesc k l := ((sortByDesc_perm k l).mem_iff).mpr hy
  rw [← List.take_append_drop m (sortByDesc k l)] at hys
  have hyd : y ∈ (sortByDesc k l).drop m := by
    rcases List.mem_append.mp hys with h | h
    · exact absurd h hyn
    · exact h
  have hp := sortByDesc_sorted k l
  rw [← List.take_append_drop m (sortByDesc k l)] at hp
  exact (List.pairwise_append.mp hp).2.2 x hx y hyd

/-- C6: the statistical grouping clusters exactly as the spec describes —
greedy single-pass seeded clustering over the input order, adding a later
not-yet-assigned document to the cluster exactly when it shares at least two
keywords with the seed (never tested against non-seed members) — and each
document's keyword set is its first-ten stable descending sort by
`tf * idf` score with `idf(t) = ln((N + 1) / (df(t) + 1)) + 1`: the kept
tokens are document tokens, at most ten, and every kept token scores at least
as high as every dropped token. -/
theorem C6_tfidf_greedy_spec (articles : List Article) :
    (tfidf_group articles).map (fun g => g.articles) =
      (specGreedyClusters (sharedTest (docKeywords articles))
          (List.range articles.length)).map
        (fun cluster => cluster.map (fun idx => articles.getD idx dummyArticle)) ∧
    docKeywords articles =
      (articles.map (fun a => tokenize (docText a))).map (fun tokens =>
        (docKeywordList (articles.map (fun a => tokenize (docText a)))
          articles.length tokens).toFinset) ∧
    (∀ (docsTokens : List (List String)) (n : Nat) (tokens : List String),
      (docKeywordList docsTokens n tokens).length ≤ 10 ∧
      (∀ t ∈ docKeywordList docsTokens n tokens, t ∈ tokens) ∧
      (∀ t ∈ docKeywordList docsTokens n tokens, ∀ u ∈ tokens,
        u ∉ docKeywordList docsTokens n tokens →
          docScore docsTokens n tokens u ≤ docScore docsTokens n tokens t)) ∧
    (∀ (docsTokens : List (List String)) (n : Nat) (tokens : List String) (t : String),
      docScore docsTokens n tokens t =
        ((tokens.count t : ℝ) / (tfDenom tokens : ℝ)) *
          (Real.log (((n : ℝ) + 1) / ((dfCount docsTokens t : ℝ) + 1)) + 1)) := by
  refine ⟨?_, rfl, ?_, fun _ _ _ _ => rfl⟩
  · by_cases h : articles = []
    · subst h
      simp [tfidf_group, specGreedyClusters]
    · rw [tfidf_group, if_neg h, List.map_map]
      rw [greedyGo_eq_spec _ _ [] (List.nodup_range _)]
      have hfilter : (List.range articles.length).filter
          (fun j => !(decide (j ∈ ([] : List Nat)))) = List.range articles.length := by
        apply List.filter_eq_self.mpr
        intro a _
        simp
      rw [hfilter]
      rfl
  · intro docsTokens n tokens
    refine ⟨?_, ?_, ?_⟩
    · have hlen : (docKeywordList docsTokens n tokens).length =
          min 10 (sortByDesc (docScore docsTokens n tokens) (dedupFirst tokens)).length := by
        rw [docKeywordList, List.length_take]
      omega
    · intro t ht
      have h1 : t ∈ sortByDesc (docScore docsTokens n tokens) (dedupFirst tokens) :=
        List.take_subset _ _ ht
      have h2 : t ∈ dedupFirst tokens := ((sortByDesc_perm _ _).mem_iff).mp h1
      exact mem_dedupFirst.mp h2
    · intro t ht u hu hun
      exact sortByDesc_take_dominates (docScore docsTokens n tokens)
        (dedupFirst tokens) 10 t ht u (mem_dedupFirst.mpr hu) hun

theorem dictGetQ_dictAccum (d : List (Nat × ℚ)) (k : Nat) (v : ℚ) (aid : Nat) :
    dictGetQ (dictAccum d k v) aid =
      dictGetQ d aid + (if k = aid then v else 0) := by
  induction d with
  | nil =>
    by_cases h : k = aid <;> simp [dictAccum, dictGetQ, h]
  | cons p rest ih =>
    obtain ⟨k', v'⟩ := p
    by_cases hk : k' = k
    · subst hk
      by_cases ha : k' = aid
      · subst ha
        simp [dictAccum, dictGetQ]
      · simp [dictAccum, dictGetQ, ha]
    · by_cases ha : k' = aid
      · subst ha
        have hka : ¬ (k = k') := fun h => hk h.symm
        simp [dictAccum, dictGetQ, hk, hka]
      · simp [dictAccum, dictGetQ, hk, ha, ih]

theorem dictGetQ_foldl (interactions : List Interaction) :
    ∀ (d : List (Nat × ℚ)) (aid : Nat),
      dictGetQ (interactions.foldl
        (fun d i => dictAccum d i.article_id (INTERACTION_WEIGHTS i.type)) d) aid =
      dictGetQ d aid + specAffinity interactions aid := by
  induction interactions with
  | nil =>
    intro d aid
    simp [specAffinity]
  | cons i rest ih =>
    intro d aid
    rw [List.foldl_cons, ih, dictGetQ_dictAccum]
    have hspec : specAffinity (i :: rest) aid =
        (if i.article_id = aid then INTERACTION_WEIGHTS i.type else 0) +
          specAffinity rest aid := by
      by_cases h : i.article_id = aid <;>
        simp [specAffinity, List.filter_cons, h]
    rw [hspec]
    ring

/-- `article_scores.get(a.id, 0)` equals the claim's affinity formula. -/
theorem dictGetQ_articleScores (interactions : List Interaction) (aid : Nat) :
    dictGetQ (articleScores interactions) aid = specAffinity interactions aid := by
  rw [articleScores, dictGetQ_foldl]
  simp [dictGetQ]

/-- A stable descending sort commutes with mapping when the key factors
through the map. -/
theorem sortByDesc_map {α β γ : Type} [LinearOrder γ] (k : β → γ) (f : α → β)
    (l : List α) :
    sortByDesc k (l.map f) = (sortByDesc (fun a => k (f a)) l).map f := by
  have h := List.map_insertionSort (r := fun a b => k (f b) ≤ k (f a))
    (s := fun x y => k y ≤ k x) f l (fun a _ b _ => Iff.rfl)
  exact h.symm

/-- For a non-empty interaction history, `_personalized_rank` is exactly the
stable descending sort of the groups by the claim's score. -/
theorem personalized_rank_eq (groups : List TopicGroup)
    (interactions : List Interaction) (h : interactions ≠ []) :
    personalized_rank groups interactions =
      sortByDesc (specGroupScore interactions) groups := by
  rw [personalized_rank, if_neg h]
  have hfun : (fun p : Nat × TopicGroup =>
      ((p.2.articles.length : ℚ) +
        (p.2.articles.map (fun a => dictGetQ (articleScores interactions) a.id)).sum *
          PERSONALIZATION_DAMPEN,
       p.1, p.2)) =
      (fun p : Nat × TopicGroup => (specGroupScore interactions p.2, p.1, p.2)) := by
    funext p
    have hsum : (p.2.articles.map (fun a => dictGetQ (articleScores interactions) a.id)) =
        (p.2.articles.map (fun a => specAffinity interactions a.id)) := by
      apply List.map_congr_left
      intro a _
      exact dictGetQ_articleScores interactions a.id
    rw [hsum]
    have : (p.2.articles.length : ℚ) +
        (p.2.articles.map (fun a => specAffinity interactions a.id)).sum *
          PERSONALIZATION_DAMPEN = specGroupScore interactions p.2 := by
      rw [specGroupScore, PERSONALIZATION_DAMPEN]
      ring
    rw [this]
  rw [hfun]
  rw [show (fun p : Nat × TopicGroup => (specGroupScore interactions p.2, p.1, p.2)) =
    (fun p : Nat × TopicGroup => ((specGroupScore interactions p.2, p.1, p.2) :
      ℚ × Nat × TopicGroup)) from rfl]
  rw [sortByDesc_map (fun t : ℚ × Nat × TopicGroup => t.1)
    (fun p : Nat × TopicGroup => ((specGroupScore interactions p.2, p.1, p.2) :
      ℚ × Nat × TopicGroup)) groups.enum]
  rw [List.map_map]
  have hproj : ((fun t : ℚ × Nat × TopicGroup => t.2.2) ∘
      (fun p : Nat × TopicGroup => ((specGroupScore interactions p.2, p.1, p.2) :
        ℚ × Nat × TopicGroup))) = (fun p : Nat × TopicGroup => p.2) := rfl
  rw [hproj]
  rw [show (fun p : Nat × TopicGroup => specGroupScore interactions
    ((fun q : Nat × TopicGroup => (specGroupScore interactions q.2, q.1, q.2)) p).2.2) =
    (fun p : Nat × TopicGroup => specGroupScore interactions p.2) from rfl]
  exact ((sortByDesc_map (specGroupScore interactions)
      (fun p : Nat × TopicGroup => p.2) groups.enum).symm).trans
    (congrArg (fun l => sortByDesc (specGroupScore interactions) l)
      (List.enum_map_snd groups))

theorem personalized_rank_perm (gs : List TopicGroup) (inter : List Interaction) :
    List.Perm (personalized_rank gs inter) gs := by
  by_cases h : inter = []
  · rw [h, personalized_rank, if_pos rfl]
    exact sortByDesc_perm _ _
  · rw [personalized_rank_eq gs inter h]
    exact sortByDesc_perm _ _

theorem rankStage_perm (groups : List TopicGroup) (tier : UserTier)
    (inter : Option (List Interaction)) :
    List.Perm (rankStage groups tier inter) (groups.map sortMembers) := by
  rw [rankStage]
  by_cases h : groups = []
  · subst h
    rw [if_pos rfl]
    exact List.Perm.nil
  · rw [if_neg h]
    by_cases hp : tier = UserTier.paid ∧ inter.isSome
    · rw [if_pos hp]
      exact personalized_rank_perm _ _
    · rw [if_neg hp]
      exact sortByDesc_perm _ _

/-- C7: with a non-empty interaction history, the paid-tier ranker orders the
(member-sorted) groups by the claim's score — member count plus half the sum
of member affinities, affinities summing read=+1, tapped-through=+2,
saved=+3, dismissed=−2 over the user's records — descending, stably (ties
keep input order, expressed by key-class preservation); with no interaction
records at all, the base policy is used instead. -/
theorem C7_personalized_rank (groups : List TopicGroup) (inter : List Interaction)
    (hne : inter ≠ []) :
    rankStage groups UserTier.paid (some inter) =
      sortByDesc (specGroupScore inter) (groups.map sortMembers) ∧
    (rankStage groups UserTier.paid (some inter)).Pairwise
      (fun g h => specGroupScore inter h ≤ specGroupScore inter g) ∧
    List.Perm (rankStage groups UserTier.paid (some inter)) (groups.map sortMembers) ∧
    (∀ c : ℚ, (rankStage groups UserTier.paid (some inter)).filter
        (fun g => specGroupScore inter g = c) =
      (groups.map sortMembers).filter (fun g => specGroupScore inter g = c)) ∧
    (∀ gs : List TopicGroup, rankStage gs UserTier.paid (some []) =
      base_rank (gs.map sortMembers)) := by
  have hmain : rankStage groups UserTier.paid (some inter) =
      sortByDesc (specGroupScore inter) (groups.map sortMembers) := by
    rw [rankStage]
    by_cases h : groups = []
    · subst h
      rw [if_pos rfl]
      rfl
    · rw [if_neg h, if_pos ⟨rfl, rfl⟩, Option.getD_some]
      exact personalized_rank_eq _ _ hne
  refine ⟨hmain, ?_, ?_, ?_, ?_⟩
  · rw [hmain]
    exact sortByDesc_sorted _ _
  · rw [hmain]
    exact sortByDesc_perm _ _
  · intro c
    rw [hmain]
    exact sortByDesc_filter_key _ _ _
  · intro gs
    rw [rankStage]
    by_cases h : gs = []
    · subst h
      rw [if_pos rfl]
      rfl
    · rw [if_neg h, if_pos ⟨rfl, rfl⟩, Option.getD_some]
      rw [personalized_rank, if_pos rfl]

/-- Witness for C7 at the spec's own example shape: a 1-article group whose
sole article was saved and a 2-article group with no interactions. -/
theorem C7_personalized_rank_witness :
    interactionsSaved ≠ [] ∧
    rankStage [tgPair, tgSolo] UserTier.paid (some interactionsSaved) =
      sortByDesc (specGroupScore interactionsSaved) ([tgPair, tgSolo].map sortMembers) :=
  ⟨by decide, (C7_personalized_rank [tgPair, tgSolo] interactionsSaved (by decide)).1⟩

/-- C8: the ranker sorts every group's members by publish timestamp
descending with the ingestion timestamp substituted when the publish
timestamp is absent (each output group is a recency-sorted permutation of an
input group's members), and under the base policy the groups come back
ordered by member count descending with ties preserving their relative input
order. -/
theorem C8_rank_ordering (groups : List TopicGroup) (tier : UserTier)
    (inter : Option (List Interaction)) :
    List.Perm (rankStage groups tier inter) (groups.map sortMembers) ∧
    (∀ g ∈ rankStage groups tier inter,
      g.articles.Pairwise (fun a b => recencyKey b ≤ recencyKey a) ∧
      ∃ g₀ ∈ groups, List.Perm g.articles g₀.articles) ∧
    (rankStage groups UserTier.free none).Pairwise
      (fun g h => h.articles.length ≤ g.articles.length) ∧
    (∀ c : Nat, (rankStage groups UserTier.free none).filter
        (fun g => g.articles.length = c) =
      (groups.map sortMembers).filter (fun g => g.articles.length = c)) := by
  refine ⟨rankStage_perm groups tier inter, ?_, ?_, ?_⟩
  · intro g hg
    have hmem : g ∈ groups.map sortMembers :=
      ((rankStage_perm groups tier inter).mem_iff).mp hg
    rcases List.mem_map.mp hmem with ⟨g₀, hg₀, rfl⟩
    exact ⟨sortByDesc_sorted recencyKey g₀.articles,
      g₀, hg₀, sortByDesc_perm recencyKey g₀.articles⟩
  · rw [rankStage]
    by_cases h : groups = []
    · subst h
      rw [if_pos rfl]
      exact List.Pairwise.nil
    · rw [if_neg h, if_neg (by simp)]
      exact sortByDesc_sorted _ _
  · intro c
    rw [rankStage]
    by_cases h : groups = []
    · subst h
      rw [if_pos rfl]
      rfl
    · rw [if_neg h, if_neg (by simp)]
      exact sortByDesc_filter_key _ _ _

theorem exceptMapM_ok_length {α β : Type} (f : α → Except Unit β) :
    ∀ (l : List α) (r : List β), exceptMapM f l = Except.ok r → r.length = l.length := by
  intro l
  induction l with
  | nil =>
    intro r h
    simp only [exceptMapM] at h
    cases h
    rfl
  | cons a t ih =>
    intro r h
    rw [exceptMapM] at h
    cases hfa : f a with
    | error e =>
      rw [hfa] at h
      cases h
    | ok b =>
      rw [hfa] at h
      cases hrec : exceptMapM f t with
      | error e =>
        rw [hrec] at h
        cases h
      | ok bs =>
        rw [hrec] at h
        cases h
        simp [ih bs hrec]

theorem exceptMapM_ok_mem {α β : Type} (f : α → Except Unit β) :
    ∀ (l : List α) (r : List β), exceptMapM f l = Except.ok r →
      ∀ y ∈ r, ∃ x ∈ l, f x = Except.ok y := by
  intro l
  induction l with
  | nil =>
    intro r h
    simp only [exceptMapM] at h
    cases h
    intro y hy
    cases hy
  | cons a t ih =>
    intro r h
    rw [exceptMapM] at h
    cases hfa : f a with
    | error e =>
      rw [hfa] at h
      cases h
    | ok b =>
      rw [hfa] at h
      cases hrec : exceptMapM f t with
      | error e =>
        rw [hrec] at h
        cases h
      | ok bs =>
        rw [hrec] at h
        cases h
        intro y hy
        rcases List.mem_cons.mp hy with rfl | hy
        · exact ⟨a, List.mem_cons_self _ _, hfa⟩
        · rcases ih bs hrec y hy with ⟨x, hx, hfx⟩
          exact ⟨x, List.mem_cons_of_mem _ hx, hfx⟩

/-- Every cluster the greedy loop emits is non-empty (it starts with its
seed). -/
theorem greedyGo_cluster_ne_nil (test : Nat → Nat → Bool) :
    ∀ (l assigned : List Nat) (c : List Nat), c ∈ greedyGo test l assigned → c ≠ [] := by
  intro l
  induction l with
  | nil =>
    intro assigned c hc
    cases hc
  | cons i rest ih =>
    intro assigned c hc
    rw [greedyGo] at hc
    by_cases hi : i ∈ assigned
    · rw [if_pos hi] at hc
      exact ih _ c hc
    · rw [if_neg hi] at hc
      rcases List.mem_cons.mp hc with rfl | hc
      · exact List.cons_ne_nil _ _
      · exact ih _ c hc

/-- A `TopicGroup` built from an oracle group with a non-empty index list has
a valid `primary_index`. -/
theorem mkLlmTopicGroup_primary_valid (batch : List Article) (g : GroupResultM)
    (tg : TopicGroup) (hok : mkLlmTopicGroup batch g = Except.ok tg)
    (hne : g.article_indices ≠ []) :
    tg.primary_index < tg.articles.length := by
  rw [mkLlmTopicGroup] at hok
  simp only [bind, Except.bind] at hok
  cases harts : exceptMapM (fun i => pyGetI batch i) g.article_indices with
  | error e =>
    rw [harts] at hok
    cases hok
  | ok arts =>
    rw [harts] at hok
    cases hok
    have hlen : arts.length = g.article_indices.length :=
      exceptMapM_ok_length _ _ _ harts
    have hpos : 0 < g.article_indices.length :=
      List.length_pos.mpr hne
    by_cases hmem : g.primary_index ∈ g.article_indices
    · simp only [if_pos hmem]
      rw [hlen]
      exact List.indexOf_lt_length.mpr hmem
    · simp only [if_neg hmem]
      rw [hlen]
      exact hpos

/-- Through the batch loop, every accepted assisted grouping built from
responses whose groups all carry non-empty index lists has only valid
`primary_index` values. -/
theorem llm_group_batches_primary_valid (oracle : Nat → Except Unit (List GroupResultM)) :
    ∀ (chunks : List (Nat × List Article)) (gs : List TopicGroup),
      llm_group_batches oracle chunks = Except.ok (some gs) →
      (∀ p ∈ chunks, ∀ resp, oracle p.1 = Except.ok resp →
        ∀ g ∈ resp, g.article_indices ≠ []) →
      ∀ tg ∈ gs, tg.primary_index < tg.articles.length := by
  intro chunks
  induction chunks with
  | nil =>
    intro gs h _ tg htg
    rw [llm_group_batches] at h
    cases h
    cases htg
  | cons p rest ih =>
    intro gs h hwf tg htg
    obtain ⟨start, batch⟩ := p
    rw [llm_group_batches] at h
    cases horc : oracle start with
    | error e =>
      rw [horc] at h
      cases h
    | ok resp =>
      rw [horc] at h
      dsimp only at h
      by_cases hemp : resp.isEmpty
      · rw [if_pos hemp] at h
        cases h
      · rw [if_neg hemp] at h
        simp only [bind, Except.bind] at h
        cases htgs : exceptMapM (mkLlmTopicGroup batch) resp with
        | error e =>
          rw [htgs] at h
          cases h
        | ok tgs =>
          rw [htgs] at h
          cases hrest : llm_group_batches oracle rest with
          | error e =>
            rw [hrest] at h
            cases h
          | ok restRes =>
            rw [hrest] at h
            cases restRes with
            | none =>
              simp only [] at h
              cases h
            | some more =>
              simp only [] at h
              cases h
              rcases List.mem_append.mp htg with htg | htg
              · rcases exceptMapM_ok_mem _ _ _ htgs tg htg with ⟨g, hg, hgok⟩
                have hne : g.article_indices ≠ [] :=
                  hwf (start, batch) (List.mem_cons_self _ _) resp horc g hg
                exact mkLlmTopicGroup_primary_valid batch g tg hgok hne
              · exact ih more hrest
                  (fun q hq => hwf q (List.mem_cons_of_mem _ hq)) tg htg

/-- C10 (amended): every `TopicGroup` the Grouper returns has a
`primary_index` that indexes its articles list — unconditionally for the
statistical strategy, and for the assisted strategy whenever every group in
the oracle responses it accepted carries a non-empty index list (the
counterexample shows an accepted empty-index group violates it). -/
theorem C10_primary_index_valid
    (articles : List Article)
    (oracle : Nat → Except Unit (List GroupResultM))
    (primaries : List Article) (gs : List TopicGroup)
    (hok : llm_group oracle primaries = Except.ok (some gs))
    (hwf : ∀ p ∈ chunksFrom 20 0 primaries,
      ∀ g ∈ exceptD (oracle p.1) [], g.article_indices ≠ []) :
    (∀ tg ∈ tfidf_group articles, tg.primary_index < tg.articles.length) ∧
    (∀ tg ∈ gs, tg.primary_index < tg.articles.length) := by
  constructor
  · intro tg htg
    rw [tfidf_group] at htg
    by_cases h : articles = []
    · rw [if_pos h] at htg
      cases htg
    · rw [if_neg h] at htg
      rcases List.mem_map.mp htg with ⟨cluster, hcl, rfl⟩
      have hne := greedyGo_cluster_ne_nil _ _ _ _ hcl
      have hpos : 0 < cluster.length := List.length_pos.mpr hne
      simpa using hpos
  · refine llm_group_batches_primary_valid oracle _ gs hok ?_
    intro p hp resp horc g hg
    have := hwf p hp g
    rw [horc] at this
    exact this hg

/-- Counterexample to C10 as stated: the assisted strategy accepts an oracle
group with an empty `article_indices`, producing a `TopicGroup` with no
articles whose `primary_index = 0` is not a valid index. -/
theorem C10_counterexample :
    groupStage UserTier.paid (some (fun _ => Except.ok [emptyIdxResponse]))
      [dgRank1] = Except.ok [emptyTopicGroup] ∧
    ¬ (emptyTopicGroup.primary_index < emptyTopicGroup.articles.length) :=
  ⟨rfl, by decide⟩

/-- Witness for the amended C10 at a concrete accepted response whose groups
all have non-empty index lists. -/
theorem C10_primary_index_valid_witness :
    llm_group (fun _ => Except.ok [singleIdxResponse]) [artRank1] =
      Except.ok (some [singleTopicGroup]) ∧
    (∀ p ∈ chunksFrom 20 0 [artRank1],
      ∀ g ∈ exceptD ((fun (_ : Nat) => Except.ok [singleIdxResponse]) p.1) [],
        g.article_indices ≠ []) ∧
    ((∀ tg ∈ tfidf_group [artRank1], tg.primary_index < tg.articles.length) ∧
     (∀ tg ∈ [singleTopicGroup], tg.primary_index < tg.articles.length)) :=
  ⟨rfl, by decide,
   C10_primary_index_valid [artRank1] (fun _ => Except.ok [singleIdxResponse])
     [artRank1] [singleTopicGroup] rfl (by decide)⟩

/-- C2 evidence: an oracle response referencing an index outside the batch
makes the dedup stage and the group stage raise an `IndexError` to the caller
(the merge/materialize loops sit outside the `try` blocks), instead of
falling back as the spec requires. -/
theorem C2_malformed_oracle_raises :
    dedupStage UserTier.paid (some (fun _ => Except.ok [[0, 5]]))
      [artRank1, artRank2] = Except.error () ∧
    groupStage UserTier.paid (some (fun _ => Except.ok [oobIdxResponse]))
      [dgRank1, dgRank2] = Except.error () :=
  ⟨rfl, rfl⟩

theorem retryCall_error {α : Type} (call : Nat → Except Unit α)
    (h : ∀ a, call a = Except.error ()) :
    ∀ (remaining attempt : Nat), retryCall call attempt remaining = none := by
  intro remaining
  induction remaining with
  | zero =>
    intro attempt
    rw [retryCall, h attempt]
  | succ n ih =>
    intro attempt
    rw [retryCall, h attempt]
    exact ih _

theorem find_semantic_duplicates_error (call : Nat → Except Unit (List (List Int)))
    (h : ∀ a, call a = Except.error ()) (mr : Nat) :
    find_semantic_duplicates call mr = [] := by
  rw [find_semantic_duplicates, retryCall_error call h mr 0]

theorem group_and_summarize_error (call : Nat → Except Unit (List GroupResultM))
    (h : ∀ a, call a = Except.error ()) (mr : Nat) :
    group_and_summarize call mr = [] := by
  rw [group_and_summarize, retryCall_error call h mr 0]
  rfl

theorem filterMap_some_eq_map {α β : Type} (f : α → β) :
    ∀ l : List α, l.filterMap (fun x => some (f x)) = l.map f := by
  intro l
  induction l with
  | nil => rfl
  | cons a t ih => simp [List.filterMap_cons, ih]

theorem getD_map_of_lt {α β : Type} (f : α → β) (d : β) (d' : α) :
    ∀ (l : List α) (i : Nat), i < l.length → (l.map f).getD i d = f (l.getD i d') := by
  intro l
  induction l with
  | nil =>
    intro i hi
    cases hi
  | cons a t ih =>
    intro i hi
    cases i with
    | zero => rfl
    | succ j =>
      have hj : j < t.length := Nat.lt_of_succ_lt_succ hi
      exact ih j hj

/-- Starting from the Phase-1 state with nothing merged, the final collection
returns exactly the Phase-1 groups. -/
theorem semFinalGroups_init (groups : List DedupGroup) :
    semFinalGroups (groups.map (fun g => g.primary))
      { dups := groups.map (fun g => g.duplicates), merged := [] } = groups := by
  rw [semFinalGroups]
  have h1 : ((List.range (groups.map (fun g => g.primary)).length).filterMap
      (fun (i : Nat) =>
        if (Int.ofNat i) ∈ ([] : List Int) then none
        else some ({ primary := (groups.map (fun g => g.primary)).getD i dummyArticle,
                     duplicates := (groups.map (fun g => g.duplicates)).getD i [] } :
          DedupGroup))) =
      (List.range (groups.map (fun g => g.primary)).length).map
        (fun (i : Nat) =>
          ({ primary := (groups.map (fun g => g.primary)).getD i dummyArticle,
             duplicates := (groups.map (fun g => g.duplicates)).getD i [] } : DedupGroup)) := by
    rw [show (fun (i : Nat) =>
        if (Int.ofNat i) ∈ ([] : List Int) then none
        else some ({ primary := (groups.map (fun g => g.primary)).getD i dummyArticle,
                     duplicates := (groups.map (fun g => g.duplicates)).getD i [] } :
          DedupGroup)) =
      (fun (i : Nat) =>
        some ({ primary := (groups.map (fun g => g.primary)).getD i dummyArticle,
                duplicates := (groups.map (fun g => g.duplicates)).getD i [] } :
          DedupGroup)) from funext (fun i => by simp)]
    exact filterMap_some_eq_map _ _
  rw [h1]
  rw [List.length_map]
  have h2 : ∀ i ∈ List.range groups.length,
      ({ primary := (groups.map (fun g => g.primary)).getD i dummyArticle,
         duplicates := (groups.map (fun g => g.duplicates)).getD i [] } : DedupGroup) =
      groups.getD i { primary := dummyArticle, duplicates := [] } := by
    intro i hi
    have hlt : i < groups.length := List.mem_range.mp hi
    rw [getD_map_of_lt (fun g => g.primary) dummyArticle
        { primary := dummyArticle, duplicates := [] } groups i hlt,
      getD_map_of_lt (fun g => g.duplicates) []
        { primary := dummyArticle, duplicates := [] } groups i hlt]
  rw [List.map_congr_left h2]
  exact map_getD_range _ groups

/-- When every batch response is empty, the merge loop leaves the state
untouched. -/
theorem semBatch_fold_skip (oracle : Nat → Except Unit (List (List Int)))
    (primaries : List Article) (hresp : ∀ s, oracle s = Except.ok []) :
    ∀ (chunks : List (Nat × List Article)) (st : SemState),
      exceptFoldlM (semBatchStep oracle primaries) st chunks = Except.ok st := by
  intro chunks
  induction chunks with
  | nil =>
    intro st
    rfl
  | cons c rest ih =>
    intro st
    rw [exceptFoldlM]
    rw [show semBatchStep oracle primaries st c = Except.ok st from by
      rw [semBatchStep, hresp c.1]
      rfl]
    exact ih st

/-- `_semantic_dedup` with empty responses on every batch returns the Phase-1
groups unchanged. -/
theorem semantic_dedup_skip (oracle : Nat → Except Unit (List (List Int)))
    (groups : List DedupGroup) (hresp : ∀ s, oracle s = Except.ok []) :
    semantic_dedup oracle groups = Except.ok groups := by
  rw [semantic_dedup]
  by_cases hle : (groups.map (fun g => g.primary)).length ≤ 1
  · rw [if_pos hle]
  · rw [if_neg hle]
    rw [semBatch_fold_skip oracle _ hresp]
    dsimp only
    rw [semFinalGroups_init]

/-- The assisted dedup path with a service whose every raw call raises is the
fingerprint-only path. -/
theorem dedupStage_degrades (articles : List Article)
    (dcall : Nat → Nat → Except Unit (List (List Int)))
    (hd : ∀ s a, dcall s a = Except.error ()) :
    dedupStage UserTier.paid
        (some (fun s => Except.ok (find_semantic_duplicates (dcall s) 2))) articles =
      dedupStage UserTier.paid none articles := by
  rw [dedupStage, dedupStage]
  by_cases h : articles = []
  · rw [if_pos h, if_pos h]
  · rw [if_neg h, if_neg h, if_pos ⟨rfl, rfl⟩, if_neg (by simp)]
    rw [Option.getD_some]
    exact semantic_dedup_skip _ _
      (fun s => by rw [find_semantic_duplicates_error (dcall s) (hd s) 2])

/-- The batch loop with an empty response list on a first batch abandons the
assisted result. -/
theorem llm_group_empty_responses (oracle : Nat → Except Unit (List GroupResultM))
    (hresp : ∀ s, oracle s = Except.ok []) (articles : List Article) :
    llm_group oracle articles = Except.ok none ∨
      llm_group oracle articles = Except.ok (some []) := by
  rw [llm_group]
  cases hch : chunksFrom 20 0 articles with
  | nil =>
    right
    rfl
  | cons c rest =>
    left
    obtain ⟨s, b⟩ := c
    rw [llm_group_batches, hresp s]
    rfl

/-- The assisted grouping path with a service whose every raw call raises is
the statistical path. -/
theorem groupStage_degrades (dg : List DedupGroup)
    (gcall : Nat → Nat → Except Unit (List GroupResultM))
    (hg : ∀ s a, gcall s a = Except.error ()) :
    groupStage UserTier.paid
        (some (fun s => Except.ok (group_and_summarize (gcall s) 2))) dg =
      groupStage UserTier.paid none dg := by
  have hresp : ∀ s : Nat,
      (Except.ok (group_and_summarize (gcall s) 2) : Except Unit (List GroupResultM)) =
        Except.ok [] := by
    intro s
    rw [group_and_summarize_error (gcall s) (hg s) 2]
  rw [groupStage, groupStage]
  by_cases h : dg = []
  · rw [if_pos h, if_pos h]
  · rw [if_neg h, if_neg h, if_pos ⟨rfl, rfl⟩, if_neg (by simp)]
    rw [Option.getD_some]
    rcases llm_group_empty_responses _ hresp (dg.map (fun g => g.primary)) with heq | heq
    · rw [heq]
      rfl
    · rw [heq]
      rfl

/-- C4: if every raw call of the enrichment service raises, the paid-tier
dedup and grouping stages produce exactly the clusters of the no-oracle
configuration (the retry wrapper returns empty results, which both stages
treat as "skip"), and the whole run still completes without error. -/
theorem C4_oracle_degradation
    (articles : List Article) (dg : List DedupGroup)
    (interactions : Option (List Interaction))
    (dcall : Nat → Nat → Except Unit (List (List Int)))
    (gcall : Nat → Nat → Except Unit (List GroupResultM))
    (hd : ∀ s a, dcall s a = Except.error ())
    (hg : ∀ s a, gcall s a = Except.error ()) :
    dedupStage UserTier.paid
        (some (fun s => Except.ok (find_semantic_duplicates (dcall s) 2))) articles =
      dedupStage UserTier.paid none articles ∧
    groupStage UserTier.paid
        (some (fun s => Except.ok (group_and_summarize (gcall s) 2))) dg =
      groupStage UserTier.paid none dg ∧
    ∃ d, generate articles interactions UserTier.paid
        (some (fun s => Except.ok (find_semantic_duplicates (dcall s) 2)))
        (some (fun s => Except.ok (group_and_summarize (gcall s) 2))) = Except.ok d := by
  refine ⟨dedupStage_degrades articles dcall hd, groupStage_degrades dg gcall hg, ?_⟩
  by_cases ha : articles = []
  · refine ⟨none, ?_⟩
    rw [generate, if_pos ha]
  · have hd1 : dedupStage UserTier.paid
        (some (fun s => Except.ok (find_semantic_duplicates (dcall s) 2))) articles =
        Except.ok (fingerprint_dedup articles) := by
      rw [dedupStage_degrades articles dcall hd, dedupStage,
        if_neg ha, if_neg (by simp)]
    have hg1 : ∀ dgroups : List DedupGroup, dgroups ≠ [] →
        groupStage UserTier.paid
          (some (fun s => Except.ok (group_and_summarize (gcall s) 2))) dgroups =
          Except.ok (tfidf_group (dgroups.map (fun g => g.primary))) := by
      intro dgroups hne
      rw [groupStage_degrades dgroups gcall hg, groupStage, if_neg hne,
        if_neg (by simp)]
    rw [generate, if_neg ha, hd1]
    dsimp only
    by_cases hdg : fingerprint_dedup articles = []
    · refine ⟨none, ?_⟩
      rw [if_pos hdg]
    · rw [if_neg hdg, hg1 _ hdg]
      dsimp only
      by_cases htg : tfidf_group ((fingerprint_dedup articles).map (fun g => g.primary)) = []
      · refine ⟨none, ?_⟩
        rw [if_pos htg]
      · refine ⟨some (materialize UserTier.paid
          (rankStage (tfidf_group ((fingerprint_dedup articles).map (fun g => g.primary)))
            UserTier.paid interactions)), ?_⟩
        rw [if_neg htg]

/-- Witness for C4 at concrete articles/groups with always-raising calls. -/
theorem C4_oracle_degradation_witness :
    dedupStage UserTier.paid
        (some (fun s => Except.ok (find_semantic_duplicates
          ((fun (_ _ : Nat) => (Except.error () : Except Unit (List (List Int)))) s) 2)))
        [artRank1, artRank2] =
      dedupStage UserTier.paid none [artRank1, artRank2] :=
  (C4_oracle_degradation [artRank1, artRank2] [dgRank1, dgRank2] none
    (fun _ _ => Except.error ()) (fun _ _ => Except.error ())
    (fun _ _ => rfl) (fun _ _ => rfl)).1

/-- C3 evidence: the grouper designates the member at `primary_index` — here
the older article, id 31 — but the ranker re-sorts members newest-first
before the orchestrator flags the item at position `primary_index`, so the
primary flag lands on article id 32 instead of the designated id 31. -/
theorem C3_primary_flag_misplaced :
    groupStage UserTier.paid (some (fun _ => Except.ok [pairIdxResponse]))
        (fingerprint_dedup c3Articles) = Except.ok [c3Group] ∧
    (c3Group.articles.getD c3Group.primary_index dummyArticle).id = 31 ∧
    generate c3Articles (some []) UserTier.paid
        (some (fun _ => Except.error ()))
        (some (fun _ => Except.ok [pairIdxResponse])) =
      Except.ok (some c3ExpectedDigest) ∧
    (((c3ExpectedDigest.groups.getD 0
        { topic_label := "", sort_order := 0, summary := none, items := [] }).items.filter
          (fun it => it.is_primary)).map (fun it => it.article_id)) = [32] ∧
    (32 : Nat) ≠ 31 :=
  ⟨rfl, rfl, rfl, by decide, by decide⟩

theorem getD_set_self {α : Type} (a d : α) :
    ∀ (l : List α) (i : Nat), i < l.length → (l.set i a).getD i d = a := by
  intro l
  induction l with
  | nil =>
    intro i hi
    cases hi
  | cons x t ih =>
    intro i hi
    cases i with
    | zero => rfl
    | succ j => exact ih j (Nat.lt_of_succ_lt_succ hi)

theorem getD_set_ne {α : Type} (a d : α) :
    ∀ (l : List α) (i j : Nat), i ≠ j → (l.set i a).getD j d = l.getD j d := by
  intro l
  induction l with
  | nil =>
    intro i j _
    rfl
  | cons x t ih =>
    intro i j hij
    cases i with
    | zero =>
      cases j with
      | zero => exact absurd rfl hij
      | succ k => rfl
    | succ i' =>
      cases j with
      | zero => rfl
      | succ k => exact ih i' k (fun h => hij (by rw [h]))

/-- Merging group `otherPos` into a distinct unmerged group `leadPos` and
recording the merge preserves the multiset of held articles. -/
theorem semContentM_mergeOne (primaries : List Article) (st : SemState)
    (leadPos otherPos : Nat)
    (hlen : st.dups.length = primaries.length)
    (hlead : leadPos < primaries.length) (hother : otherPos < primaries.length)
    (hne : leadPos ≠ otherPos)
    (hleadun : Int.ofNat leadPos ∉ st.merged)
    (hotherun : Int.ofNat otherPos ∉ st.merged) :
    semContentM primaries
      { mergeOne primaries leadPos st otherPos with
        merged := st.merged ++ [Int.ofNat otherPos] } =
      semContentM primaries st := by
  have hleadd : leadPos < st.dups.length := by rw [hlen]; exact hlead
  have hdups : (mergeOne primaries leadPos st otherPos).dups =
      st.dups.set leadPos
        ((st.dups.getD leadPos [] ++ [primaries.getD otherPos dummyArticle]) ++
          st.dups.getD otherPos []) := by
    rw [mergeOne]
    rw [List.set_set]
    rw [getD_set_self _ _ _ _ hleadd, getD_set_ne _ _ _ _ _ hne]
  rw [semContentM, semContentM]
  have hmem_lead : leadPos ∈ Finset.range primaries.length := Finset.mem_range.mpr hlead
  have hmem_other : otherPos ∈ Finset.range primaries.length := Finset.mem_range.mpr hother
  rw [← Finset.add_sum_erase _ _ hmem_lead, ← Finset.add_sum_erase _ _ hmem_lead]
  have hmem_other' : otherPos ∈ (Finset.range primaries.length).erase leadPos :=
    Finset.mem_erase.mpr ⟨fun h => hne h.symm, hmem_other⟩
  rw [← Finset.add_sum_erase _ _ hmem_other', ← Finset.add_sum_erase _ _ hmem_other']
  have hrest : Finset.sum (((Finset.range primaries.length).erase leadPos).erase otherPos)
      (fun i =>
        if Int.ofNat i ∈ ({ mergeOne primaries leadPos st otherPos with
            merged := st.merged ++ [Int.ofNat otherPos] } : SemState).merged
        then (0 : Multiset Article)
        else ((primaries.getD i dummyArticle ::
          ({ mergeOne primaries leadPos st otherPos with
            merged := st.merged ++ [Int.ofNat otherPos] } : SemState).dups.getD i []) :
          List Article)) =
      Finset.sum (((Finset.range primaries.length).erase leadPos).erase otherPos)
      (fun i =>
        if Int.ofNat i ∈ st.merged then (0 : Multiset Article)
        else ((primaries.getD i dummyArticle :: st.dups.getD i []) : List Article)) := by
    apply Finset.sum_congr rfl
    intro i hi
    have hio : i ≠ otherPos := (Finset.mem_erase.mp hi).1
    have hil : i ≠ leadPos := (Finset.mem_erase.mp (Finset.mem_erase.mp hi).2).1
    have hmergedi : (Int.ofNat i ∈ st.merged ++ [Int.ofNat otherPos]) ↔
        (Int.ofNat i ∈ st.merged) := by
      rw [List.mem_append]
      constructor
      · rintro (h | h)
        · exact h
        · exact absurd (Int.ofNat.inj (List.mem_singleton.mp h)) hio
      · exact Or.inl
    have hdupsi : ({ mergeOne primaries leadPos st otherPos with
        merged := st.merged ++ [Int.ofNat otherPos] } : SemState).dups.getD i [] =
        st.dups.getD i [] := by
      show (mergeOne primaries leadPos st otherPos).dups.getD i [] = _
      rw [hdups, getD_set_ne _ _ _ _ _ (fun h => hil h.symm)]
    by_cases hm : Int.ofNat i ∈ st.merged
    · rw [if_pos hm, if_pos (hmergedi.mpr hm)]
    · rw [if_neg hm, if_neg (fun h => hm (hmergedi.mp h)), hdupsi]
  rw [hrest]
  have hmerged_lead : (Int.ofNat leadPos ∈ st.merged ++ [Int.ofNat otherPos]) = False := by
    simp only [List.mem_append, List.mem_singleton, eq_iff_iff, iff_false]
    rintro (h | h)
    · exact hleadun h
    · exact hne (Int.ofNat.inj h)
  have hmerged_other : (Int.ofNat otherPos ∈ st.merged ++ [Int.ofNat otherPos]) := by
    rw [List.mem_append]
    exact Or.inr (List.mem_singleton.mpr rfl)
  rw [if_pos hmerged_other, if_neg (fun h => (hmerged_lead ▸ h : False)),
    if_neg hleadun, if_neg hotherun]
  show (((primaries.getD leadPos dummyArticle ::
      (mergeOne primaries leadPos st otherPos).dups.getD leadPos []) : List Article) :
        Multiset Article) + (0 + _) = _
  rw [hdups, getD_set_self _ _ _ _ hleadd]
  show (((primaries.getD leadPos dummyArticle ::
      ((st.dups.getD leadPos [] ++ [primaries.getD otherPos dummyArticle]) ++
        st.dups.getD otherPos [])) : List Article) : Multiset Article) + (0 + _) = _
  have hperm : List.Perm (primaries.getD leadPos dummyArticle ::
      ((st.dups.getD leadPos [] ++ [primaries.getD otherPos dummyArticle]) ++
        st.dups.getD otherPos []))
      ((primaries.getD leadPos dummyArticle :: st.dups.getD leadPos []) ++
        (primaries.getD otherPos dummyArticle :: st.dups.getD otherPos [])) := by
    rw [List.cons_append, List.append_assoc]
    exact List.Perm.refl _
  have hcoe : (((primaries.getD leadPos dummyArticle ::
      ((st.dups.getD leadPos [] ++ [primaries.getD otherPos dummyArticle]) ++
        st.dups.getD otherPos [])) : List Article) : Multiset Article) =
      ((primaries.getD leadPos dummyArticle :: st.dups.getD leadPos [] : List Article) :
        Multiset Article) +
      ((primaries.getD otherPos dummyArticle :: st.dups.getD otherPos [] : List Article) :
        Multiset Article) :=
    (Multiset.coe_eq_coe.mpr hperm).trans (Multiset.coe_add _ _)
  rw [hcoe]
  rw [zero_add, add_assoc]

theorem pyIndex_nonneg (n : Nat) (i : Int) (h0 : 0 ≤ i) (hn : i < (n : Int)) :
    pyIndex n i = some i.toNat := by
  rw [pyIndex, if_pos ⟨h0, hn⟩]

theorem pyGetI_zero {α : Type} [Inhabited α] (a : α) (l : List α) :
    pyGetI (a :: l) 0 = Except.ok a := by
  rw [pyGetI, pyIndex_nonneg _ _ (le_refl 0) (by exact_mod_cast Nat.succ_pos l.length)]
  rfl

/-- The inner merge loop of one oracle group: under freshness and range
conditions every step succeeds, the held-article multiset is preserved, and
the merged list is extended by exactly the loop's indices. -/
theorem semMergeFold_ok (primaries : List Article) (leadIdx : Int) (leadPos : Nat)
    (hlp : leadPos = leadIdx.toNat) (hl0 : 0 ≤ leadIdx)
    (hln : leadIdx < (primaries.length : Int)) :
    ∀ (rest : List Int) (st : SemState),
      st.dups.length = primaries.length →
      (∀ x ∈ rest, 0 ≤ x ∧ x < (primaries.length : Int)) →
      rest.Nodup →
      (∀ x ∈ rest, x ∉ st.merged) →
      leadIdx ∉ st.merged →
      leadIdx ∉ rest →
      ∃ st', exceptFoldlM
          (fun st idx =>
            match pyIndex primaries.length idx with
            | none => Except.error ()
            | some otherPos =>
              Except.ok
                { mergeOne primaries leadPos st otherPos with
                  merged := st.merged ++ [idx] })
          st rest = Except.ok st' ∧
        semContentM primaries st' = semContentM primaries st ∧
        st'.merged = st.merged ++ rest ∧
        st'.dups.length = primaries.length := by
  intro rest
  induction rest with
  | nil =>
    intro st hlen _ _ _ _ _
    exact ⟨st, rfl, rfl, by rw [List.append_nil], hlen⟩
  | cons idx rest' ih =>
    intro st hlen hbound hnd hfresh hleadm hleadr
    have hidx : 0 ≤ idx ∧ idx < (primaries.length : Int) :=
      hbound idx (List.mem_cons_self _ _)
    have hofnat : Int.ofNat idx.toNat = idx := Int.toNat_of_nonneg hidx.1
    have hleadof : Int.ofNat leadPos = leadIdx := by
      rw [hlp]
      exact Int.toNat_of_nonneg hl0
    rw [exceptFoldlM, pyIndex_nonneg _ _ hidx.1 hidx.2]
    dsimp only
    set st1 : SemState := { mergeOne primaries leadPos st idx.toNat with
      merged := st.merged ++ [idx] } with hst1
    have hlen1 : st1.dups.length = primaries.length := by
      rw [hst1]
      show (mergeOne primaries leadPos st idx.toNat).dups.length = _
      rw [mergeOne]
      dsimp only
      rw [List.length_set, List.length_set]
      exact hlen
    have hcontent1 : semContentM primaries st1 = semContentM primaries st := by
      rw [hst1]
      rw [show ({ mergeOne primaries leadPos st idx.toNat with
          merged := st.merged ++ [idx] } : SemState) =
        { mergeOne primaries leadPos st idx.toNat with
          merged := st.merged ++ [Int.ofNat idx.toNat] } from by rw [hofnat]]
      apply semContentM_mergeOne primaries st leadPos idx.toNat hlen
      · rw [hlp]
        omega
      · omega
      · intro h
        apply hleadr
        have : leadIdx = idx := by
          rw [← hleadof, ← hofnat, h]
        rw [this]
        exact List.mem_cons_self _ _
      · rw [hleadof]
        exact hleadm
      · rw [hofnat]
        exact hfresh idx (List.mem_cons_self _ _)
    have hmerged1 : st1.merged = st.merged ++ [idx] := rfl
    obtain ⟨st', hfold, hcontent, hmerged, hlen'⟩ := ih st1 hlen1
      (fun x hx => hbound x (List.mem_cons_of_mem _ hx))
      ((List.nodup_cons.mp hnd).2)
      (by
        intro x hx hmem
        rw [hmerged1, List.mem_append] at hmem
        rcases hmem with h | h
        · exact hfresh x (List.mem_cons_of_mem _ hx) h
        · exact (List.nodup_cons.mp hnd).1 (List.mem_singleton.mp h ▸ hx))
      (by
        intro hmem
        rw [hmerged1, List.mem_append] at hmem
        rcases hmem with h | h
        · exact hleadm h
        · exact hleadr (List.mem_singleton.mp h ▸ List.mem_cons_self _ _))
      (fun hx => hleadr (List.mem_cons_of_mem _ hx))
    refine ⟨st', hfold, hcontent.trans hcontent1, ?_, hlen'⟩
    rw [hmerged, hmerged1, List.append_assoc]
    rfl

/-- Applying one well-formed oracle group (nonempty, in-range, duplicate-free,
disjoint from already-merged indices) succeeds, preserves the held-article
multiset, and extends the merged list by exactly the group's non-lead
indices. -/
theorem applySemGroup_ok (primaries : List Article) (start : Nat)
    (st : SemState) (g : List Int)
    (hlen : st.dups.length = primaries.length)
    (hne : g ≠ [])
    (hbound : ∀ x ∈ g.map (fun i => (start : Int) + i),
      0 ≤ x ∧ x < (primaries.length : Int))
    (hnd : (g.map (fun i => (start : Int) + i)).Nodup)
    (hfresh : ∀ x ∈ g.map (fun i => (start : Int) + i), x ∉ st.merged) :
    ∃ st', applySemGroup primaries start st g = Except.ok st' ∧
      semContentM primaries st' = semContentM primaries st ∧
      st'.merged = st.merged ++ (g.map (fun i => (start : Int) + i)).drop 1 ∧
      st'.dups.length = primaries.length := by
  cases g with
  | nil => exact absurd rfl hne
  | cons i0 g' =>
    rw [List.map_cons] at hbound hnd hfresh ⊢
    have hhead : 0 ≤ (start : Int) + i0 ∧ (start : Int) + i0 < (primaries.length : Int) :=
      hbound _ (List.mem_cons_self _ _)
    rw [applySemGroup, List.map_cons, pyGetI_zero]
    dsimp only
    rw [pyIndex_nonneg _ _ hhead.1 hhead.2]
    dsimp only [List.drop]
    obtain ⟨st', hfold, hcontent, hmerged, hlen'⟩ :=
      semMergeFold_ok primaries ((start : Int) + i0) ((start : Int) + i0).toNat
        rfl hhead.1 hhead.2 (g'.map (fun i => (start : Int) + i)) st hlen
        (fun x hx => hbound x (List.mem_cons_of_mem _ hx))
        (List.nodup_cons.mp hnd).2
        (fun x hx => hfresh x (List.mem_cons_of_mem _ hx))
        (hfresh _ (List.mem_cons_self _ _))
        (List.nodup_cons.mp hnd).1
    exact ⟨st', hfold, hcontent, hmerged, hlen'⟩

/-- The group loop of one oracle response: when all groups are nonempty and
the referenced indices are in range, duplicate-free across the whole
response, and disjoint from already-merged indices, the loop succeeds, the
held-article multiset is preserved, and the merged list grows only by indices
referenced by the response. -/
theorem semGroupsFold_ok (primaries : List Article) (start : Nat) :
    ∀ (gs : List (List Int)) (st : SemState),
      st.dups.length = primaries.length →
      (∀ g ∈ gs, g ≠ []) →
      (∀ x ∈ gs.flatMap (fun g => g.map (fun i => (start : Int) + i)),
        0 ≤ x ∧ x < (primaries.length : Int)) →
      (gs.flatMap (fun g => g.map (fun i => (start : Int) + i))).Nodup →
      (∀ x ∈ gs.flatMap (fun g => g.map (fun i => (start : Int) + i)),
        x ∉ st.merged) →
      ∃ st' L, exceptFoldlM (applySemGroup primaries start) st gs = Except.ok st' ∧
        semContentM primaries st' = semContentM primaries st ∧
        st'.merged = st.merged ++ L ∧
        (∀ x ∈ L, x ∈ gs.flatMap (fun g => g.map (fun i => (start : Int) + i))) ∧
        st'.dups.length = primaries.length := by
  intro gs
  induction gs with
  | nil =>
    intro st hlen _ _ _ _
    refine ⟨st, [], rfl, rfl, by rw [List.append_nil], ?_, hlen⟩
    intro x hx
    cases hx
  | cons g gs' ih =>
    intro st hlen hne hbound hnd hfresh
    rw [List.flatMap_cons] at hbound hnd hfresh
    have hdisj := List.disjoint_of_nodup_append hnd
    obtain ⟨st1, happ, hcontent1, hmerged1, hlen1⟩ :=
      applySemGroup_ok primaries start st g hlen (hne g (List.mem_cons_self _ _))
        (fun x hx => hbound x (List.mem_append_left _ hx))
        (List.Nodup.of_append_left hnd)
        (fun x hx => hfresh x (List.mem_append_left _ hx))
    obtain ⟨st', L', hfold, hcontent, hmerged, hLmem, hlen'⟩ := ih st1 hlen1
      (fun g hg => hne g (List.mem_cons_of_mem _ hg))
      (fun x hx => hbound x (List.mem_append_right _ hx))
      (List.Nodup.of_append_right hnd)
      (by
        intro x hx hmem
        rw [hmerged1, List.mem_append] at hmem
        rcases hmem with h | h
        · exact hfresh x (List.mem_append_right _ hx) h
        · exact hdisj (List.drop_subset 1 _ h) hx)
    refine ⟨st', (g.map (fun i => (start : Int) + i)).drop 1 ++ L',
      ?_, hcontent.trans hcontent1, ?_, ?_, hlen'⟩
    · rw [exceptFoldlM, happ]
      exact hfold
    · rw [hmerged, hmerged1, List.append_assoc]
    · intro x hx
      rw [List.mem_append] at hx
      rcases hx with h | h
      · exact List.mem_append_left _ (List.drop_subset 1 _ h)
      · exact List.mem_append_right _ (hLmem x h)

/-- The batch loop of `_semantic_dedup`: raised calls and empty responses
skip the batch; accepted responses whose groups are nonempty, in range,
duplicate-free across the run, and disjoint from already-merged indices are
applied with the held-article multiset preserved. -/
theorem semBatchesFold_ok (oracle : Nat → Except Unit (List (List Int)))
    (primaries : List Article) :
    ∀ (chunks : List (Nat × List Article)) (st : SemState),
      st.dups.length = primaries.length →
      (∀ p ∈ chunks, ∀ g ∈ exceptD (oracle p.1) [], g ≠ []) →
      (∀ x ∈ chunks.flatMap (fun p => (exceptD (oracle p.1) []).flatMap
          (fun g => g.map (fun i => (p.1 : Int) + i))),
        0 ≤ x ∧ x < (primaries.length : Int)) →
      (chunks.flatMap (fun p => (exceptD (oracle p.1) []).flatMap
          (fun g => g.map (fun i => (p.1 : Int) + i)))).Nodup →
      (∀ x ∈ chunks.flatMap (fun p => (exceptD (oracle p.1) []).flatMap
          (fun g => g.map (fun i => (p.1 : Int) + i))), x ∉ st.merged) →
      ∃ st' L,
        exceptFoldlM (semBatchStep oracle primaries) st chunks = Except.ok st' ∧
        semContentM primaries st' = semContentM primaries st ∧
        st'.merged = st.merged ++ L ∧
        st'.dups.length = primaries.length := by
  intro chunks
  induction chunks with
  | nil =>
    intro st hlen _ _ _ _
    exact ⟨st, [], rfl, rfl, by rw [List.append_nil], hlen⟩
  | cons p chunks' ih =>
    intro st hlen hne hbound hnd hfresh
    rw [List.flatMap_cons] at hbound hnd hfresh
    cases horacle : oracle p.1 with
    | error e =>
      have hD : exceptD (oracle p.1) [] = [] := by
        rw [horacle]
        rfl
      rw [hD] at hbound hnd hfresh
      rw [List.flatMap_nil, List.nil_append] at hbound hnd hfresh
      obtain ⟨st', L, hfold, hcontent, hmerged, hlen'⟩ :=
        ih st hlen (fun q hq => hne q (List.mem_cons_of_mem _ hq)) hbound hnd hfresh
      refine ⟨st', L, ?_, hcontent, hmerged, hlen'⟩
      rw [exceptFoldlM]
      have hstep : semBatchStep oracle primaries st p = Except.ok st := by
        rw [semBatchStep, horacle]
      rw [hstep]
      exact hfold
    | ok gs =>
      have hD : exceptD (oracle p.1) [] = gs := by
        rw [horacle]
        rfl
      rw [hD] at hbound hnd hfresh
      by_cases hemp : gs = []
      · rw [hemp, List.flatMap_nil, List.nil_append] at hbound hnd hfresh
        obtain ⟨st', L, hfold, hcontent, hmerged, hlen'⟩ :=
          ih st hlen (fun q hq => hne q (List.mem_cons_of_mem _ hq)) hbound hnd hfresh
        refine ⟨st', L, ?_, hcontent, hmerged, hlen'⟩
        rw [exceptFoldlM]
        have hstep : semBatchStep oracle primaries st p = Except.ok st := by
          rw [semBatchStep, horacle, hemp]
          rfl
        rw [hstep]
        exact hfold
      · have hdisj := List.disjoint_of_nodup_append hnd
        have hneg : ∀ g ∈ gs, g ≠ [] := by
          intro g hg
          have := hne p (List.mem_cons_self _ _)
          rw [hD] at this
          exact this g hg
        obtain ⟨st1, L1, hfold1, hcontent1, hmerged1, hL1mem, hlen1⟩ :=
          semGroupsFold_ok primaries p.1 gs st hlen hneg
            (fun x hx => hbound x (List.mem_append_left _ hx))
            (List.Nodup.of_append_left hnd)
            (fun x hx => hfresh x (List.mem_append_left _ hx))
        obtain ⟨st', L', hfold, hcontent, hmerged, hlen'⟩ := ih st1 hlen1
          (fun q hq => hne q (List.mem_cons_of_mem _ hq))
          (fun x hx => hbound x (List.mem_append_right _ hx))
          (List.Nodup.of_append_right hnd)
          (by
            intro x hx hmem
            rw [hmerged1, List.mem_append] at hmem
            rcases hmem with h | h
            · exact hfresh x (List.mem_append_right _ hx) h
            · exact hdisj (hL1mem x h) hx)
        refine ⟨st', L1 ++ L', ?_, hcontent.trans hcontent1, ?_, hlen'⟩
        · rw [exceptFoldlM]
          have hstep : semBatchStep oracle primaries st p =
              exceptFoldlM (applySemGroup primaries p.1) st gs := by
            rw [semBatchStep, horacle]
            dsimp only
            rw [if_neg (by simp [hemp])]
          rw [hstep, hfold1]
          exact hfold
        · rw [hmerged, hmerged1, List.append_assoc]

theorem sum_range_list {M : Type} [AddCommMonoid M] (f : Nat → M) :
    ∀ n : Nat, ((List.range n).map f).sum = Finset.sum (Finset.range n) f := by
  intro n
  induction n with
  | zero => rfl
  | succ n ih =>
    rw [List.range_succ, List.map_append, List.sum_append, Finset.sum_range_succ, ih]
    rw [List.map_cons, List.map_nil, List.sum_cons, List.sum_nil, add_zero]

theorem coe_join_filterMap (l : List Nat) (h : Nat → Option (List Article)) :
    ((List.join (l.filterMap h) : List Article) : Multiset Article) =
      (l.map (fun i =>
        match h i with
        | some xs => (xs : Multiset Article)
        | none => 0)).sum := by
  induction l with
  | nil => rfl
  | cons a l ih =>
    rw [List.filterMap_cons, List.map_cons, List.sum_cons]
    cases ha : h a with
    | none =>
      dsimp only
      rw [ih, zero_add]
    | some xs =>
      dsimp only
      rw [List.join, ← ih]
      exact Multiset.coe_add _ _

/-- The multiset of articles laid out by the surviving groups equals the
dedup state's held-article multiset. -/
theorem semFinalGroups_content (primaries : List Article) (st : SemState) :
    ((List.join ((semFinalGroups primaries st).map
        (fun g => g.primary :: g.duplicates)) : List Article) : Multiset Article) =
      semContentM primaries st := by
  rw [semFinalGroups, List.map_filterMap, coe_join_filterMap, sum_range_list,
    semContentM]
  apply Finset.sum_congr rfl
  intro i _
  by_cases hm : Int.ofNat i ∈ st.merged
  · rw [if_pos hm, if_pos hm]
    rfl
  · rw [if_neg hm, if_neg hm]
    rfl

theorem dedupFirstAux_nodup {α : Type} [DecidableEq α] :
    ∀ (l seen : List α), (dedupFirstAux seen l).Nodup := by
  intro l
  induction l with
  | nil =>
    intro seen
    exact List.nodup_nil
  | cons a t ih =>
    intro seen
    rw [dedupFirstAux]
    by_cases hmem : a ∈ seen
    · rw [if_pos hmem]
      exact ih seen
    · rw [if_neg hmem]
      refine List.nodup_cons.mpr ⟨?_, ih (seen ++ [a])⟩
      intro hin
      exact ((mem_dedupFirstAux a t (seen ++ [a])).mp hin).2
        (List.mem_append_right _ (List.mem_singleton.mpr rfl))

theorem dedupFirst_nodup {α : Type} [DecidableEq α] (l : List α) :
    (dedupFirst l).Nodup :=
  dedupFirstAux_nodup l []

theorem filter_filter_ne (l : List Article) (k fp : String) (hne : fp ≠ k) :
    (l.filter (fun a => !(a.fingerprint = k))).filter (fun a => a.fingerprint = fp) =
      l.filter (fun a => a.fingerprint = fp) := by
  rw [List.filter_filter]
  apply List.filter_congr
  intro a _
  by_cases h : a.fingerprint = fp
  · simp [h, hne]
  · simp [h]

/-- Splitting a list by a duplicate-free covering family of fingerprint keys
and reordering each part is a permutation of the list. -/
theorem join_sorted_filter_perm :
    ∀ (keys : List String) (l : List Article), keys.Nodup →
      (∀ a ∈ l, a.fingerprint ∈ keys) →
      List.Perm
        (List.join (keys.map (fun fp =>
          sortByDesc contentLen (l.filter (fun a => a.fingerprint = fp)))))
        l := by
  intro keys
  induction keys with
  | nil =>
    intro l _ hcov
    have hl : l = [] := by
      cases l with
      | nil => rfl
      | cons a t => exact absurd (hcov a (List.mem_cons_self _ _)) (List.not_mem_nil _)
    rw [hl]
    exact List.Perm.refl _
  | cons k ks ih =>
    intro l hnd hcov
    rw [List.map_cons, List.join]
    have hcongr : ks.map (fun fp =>
        sortByDesc contentLen (l.filter (fun a => a.fingerprint = fp))) =
        ks.map (fun fp =>
          sortByDesc contentLen
            ((l.filter (fun a => !(a.fingerprint = k))).filter
              (fun a => a.fingerprint = fp))) := by
      apply List.map_congr_left
      intro fp hfp
      rw [filter_filter_ne l k fp]
      intro heq
      exact (List.nodup_cons.mp hnd).1 (heq ▸ hfp)
    rw [hcongr]
    have hperm2 := ih (l.filter (fun a => !(a.fingerprint = k)))
      (List.nodup_cons.mp hnd).2
      (by
        intro a ha
        have := hcov a (List.mem_filter.mp ha).1
        rcases List.mem_cons.mp this with h | h
        · exfalso
          have hfa := (List.mem_filter.mp ha).2
          rw [h] at hfa
          simp at hfa
        · exact h)
    exact (((sortByDesc_perm contentLen _).append hperm2).trans
      (List.filter_append_perm _ l))

theorem filterMap_sort_eq_map (articles : List Article) :
    ∀ keys : List String,
      (∀ fp ∈ keys, articles.filter (fun a => a.fingerprint = fp) ≠ []) →
      keys.filterMap (fun fp =>
        match sortByDesc contentLen (articles.filter (fun a => a.fingerprint = fp)) with
        | [] => none
        | p :: rest => some (p :: rest)) =
      keys.map (fun fp =>
        sortByDesc contentLen (articles.filter (fun a => a.fingerprint = fp))) := by
  intro keys
  induction keys with
  | nil =>
    intro _
    rfl
  | cons k ks ih =>
    intro hne
    rw [List.filterMap_cons, List.map_cons]
    cases hs : sortByDesc contentLen (articles.filter (fun a => a.fingerprint = k)) with
    | nil =>
      exfalso
      apply hne k (List.mem_cons_self _ _)
      have := sortByDesc_perm contentLen (articles.filter (fun a => a.fingerprint = k))
      rw [hs] at this
      exact (this.symm.eq_nil ▸ rfl)
    | cons p rest =>
      rw [ih (fun fp hfp => hne fp (List.mem_cons_of_mem _ hfp))]

/-- Phase-1 fingerprint dedup partitions the input: laying out each output
cluster as primary followed by duplicates is a permutation of the input
articles. -/
theorem fingerprint_dedup_partition (articles : List Article) :
    List.Perm
      (List.join ((fingerprint_dedup articles).map
        (fun g => g.primary :: g.duplicates)))
      articles := by
  rw [fingerprint_dedup, List.map_filterMap]
  have hfun : (fun fp => Option.map (fun (g : DedupGroup) => g.primary :: g.duplicates)
      (match sortByDesc contentLen (articles.filter (fun a => a.fingerprint = fp)) with
        | [] => none
        | p :: rest => some { primary := p, duplicates := rest })) =
      (fun fp =>
        match sortByDesc contentLen (articles.filter (fun a => a.fingerprint = fp)) with
        | [] => none
        | p :: rest => some (p :: rest)) := by
    funext fp
    cases sortByDesc contentLen (articles.filter (fun a => a.fingerprint = fp)) with
    | nil => rfl
    | cons p rest => rfl
  rw [hfun, filterMap_sort_eq_map articles _ ?hne]
  case hne =>
    intro fp hfp
    have hmem : fp ∈ articles.map (fun a => a.fingerprint) := mem_dedupFirst.mp hfp
    obtain ⟨a, ha, hfa⟩ := List.mem_map.mp hmem
    exact List.ne_nil_of_mem (List.mem_filter.mpr ⟨ha, by rw [hfa]; exact decide_eq_true rfl⟩)
  exact join_sorted_filter_perm _ articles (dedupFirst_nodup _)
    (fun a ha => mem_dedupFirst.mpr (List.mem_map.mpr ⟨a, ha, rfl⟩))

/-- Phase-2 semantic dedup preserves the laid-out article list up to
permutation whenever the oracle responses it accepts are well-formed: all
groups nonempty, every referenced raw index in range, and no raw index
referenced twice across the run. -/
theorem semantic_dedup_partition (oracle : Nat → Except Unit (List (List Int)))
    (groups : List DedupGroup)
    (hW1 : ∀ p ∈ chunksFrom 50 0 (groups.map (fun g => g.primary)),
      ∀ g ∈ exceptD (oracle p.1) [], g ≠ [])
    (hW2 : ∀ x ∈ semResolved oracle (groups.map (fun g => g.primary)),
      0 ≤ x ∧ x < ((groups.map (fun g => g.primary)).length : Int))
    (hW3 : (semResolved oracle (groups.map (fun g => g.primary))).Nodup) :
    ∃ out, semantic_dedup oracle groups = Except.ok out ∧
      List.Perm (List.join (out.map (fun g => g.primary :: g.duplicates)))
        (List.join (groups.map (fun g => g.primary :: g.duplicates))) := by
  rw [semantic_dedup]
  by_cases hle : (groups.map (fun g => g.primary)).length ≤ 1
  · rw [if_pos hle]
    exact ⟨groups, rfl, List.Perm.refl _⟩
  · rw [if_neg hle]
    rw [semResolved] at hW2 hW3
    obtain ⟨st', L, hfold, hcontent, hmerged, hlen'⟩ :=
      semBatchesFold_ok oracle (groups.map (fun g => g.primary))
        (chunksFrom 50 0 (groups.map (fun g => g.primary)))
        { dups := groups.map (fun g => g.duplicates), merged := [] }
        (by rw [List.length_map, List.length_map]) hW1 hW2 hW3
        (fun x _ => List.not_mem_nil x)
    rw [hfold]
    refine ⟨semFinalGroups (groups.map (fun g => g.primary)) st', rfl, ?_⟩
    apply Multiset.coe_eq_coe.mp
    rw [semFinalGroups_content, hcontent, ← semFinalGroups_content,
      semFinalGroups_init]

theorem join_map_map {α β : Type} (f : α → β) :
    ∀ L : List (List α), List.join (L.map (List.map f)) = (List.join L).map f := by
  intro L
  induction L with
  | nil => rfl
  | cons a L ih =>
    simp only [List.map_cons, List.join, List.join_cons, List.map_append, ih]

/-- The statistical grouper partitions its input: each article lands in
exactly one cluster. -/
theorem tfidf_group_partition (articles : List Article) :
    List.Perm
      (List.join ((tfidf_group articles).map (fun g => g.articles)))
      articles := by
  rw [tfidf_group]
  by_cases hnil : articles = []
  · rw [if_pos hnil, hnil]
    exact List.Perm.nil
  · rw [if_neg hnil, List.map_map]
    show List.Perm
      (List.join ((greedyGo (sharedTest (docKeywords articles))
          (List.range articles.length) []).map
        (List.map (fun idx => articles.getD idx dummyArticle)))) articles
    rw [join_map_map]
    have hfilter : (List.range articles.length).filter
        (fun j => !(decide (j ∈ ([] : List Nat)))) = List.range articles.length :=
      List.filter_eq_self.mpr (fun a _ => by simp)
    rw [greedyGo_eq_spec _ _ [] (List.nodup_range _), hfilter]
    have hjoin := specGreedyClusters_join_perm
      (sharedTest (docKeywords articles)) (List.range articles.length)
    have := hjoin.map (fun idx => articles.getD idx dummyArticle)
    rw [map_getD_range] at this
    exact this

/-- The full dedup stage partitions the input on every tier, provided the
oracle responses it accepts are well-formed. -/
theorem dedupStage_partition (tier : UserTier)
    (oracle : Option (Nat → Except Unit (List (List Int))))
    (articles : List Article)
    (hW1 : ∀ p ∈ chunksFrom 50 0 ((fingerprint_dedup articles).map (fun g => g.primary)),
      ∀ g ∈ exceptD ((oracle.getD (fun _ => Except.error ())) p.1) [], g ≠ [])
    (hW2 : ∀ x ∈ semResolved (oracle.getD (fun _ => Except.error ()))
        ((fingerprint_dedup articles).map (fun g => g.primary)),
      0 ≤ x ∧ x < ((((fingerprint_dedup articles).map (fun g => g.primary)).length : Nat) : Int))
    (hW3 : (semResolved (oracle.getD (fun _ => Except.error ()))
        ((fingerprint_dedup articles).map (fun g => g.primary))).Nodup) :
    ∃ out, dedupStage tier oracle articles = Except.ok out ∧
      List.Perm (List.join (out.map (fun g => g.primary :: g.duplicates))) articles := by
  rw [dedupStage]
  by_cases hnil : articles = []
  · rw [if_pos hnil]
    refine ⟨[], rfl, ?_⟩
    rw [hnil]
    exact List.Perm.nil
  · rw [if_neg hnil]
    by_cases hpo : tier = UserTier.paid ∧ oracle.isSome
    · rw [if_pos hpo]
      obtain ⟨out, hok, hperm⟩ := semantic_dedup_partition
        (oracle.getD (fun _ => Except.error ())) (fingerprint_dedup articles)
        hW1 hW2 hW3
      exact ⟨out, hok, hperm.trans (fingerprint_dedup_partition articles)⟩
    · rw [if_neg hpo]
      exact ⟨_, rfl, fingerprint_dedup_partition articles⟩

theorem chunksFromFuel_join {α : Type} (bs : Nat) (hbs : bs ≠ 0) :
    ∀ (fuel : Nat) (l : List α) (start : Nat), l.length ≤ fuel →
      List.join ((chunksFromFuel bs fuel start l).map (fun p => p.2)) = l := by
  intro fuel
  induction fuel with
  | zero =>
    intro l start hl
    cases l with
    | nil => rfl
    | cons x xs => exact absurd hl (by simp)
  | succ fuel ih =>
    intro l start hl
    cases l with
    | nil => rfl
    | cons x xs =>
      rw [chunksFromFuel, if_neg hbs, List.map_cons]
      simp only [List.join] at ih ⊢
      simp only [List.flatten_cons]
      rw [ih ((x :: xs).drop bs) (start + bs) (by
        rw [List.length_drop]
        have h1 : (x :: xs).length ≤ fuel + 1 := hl
        omega)]
      exact List.take_append_drop bs (x :: xs)

/-- The batches produced by `range(0, len(l), bs)` concatenate back to the
input. -/
theorem chunksFrom_join {α : Type} (bs : Nat) (hbs : bs ≠ 0) (l : List α) :
    List.join ((chunksFrom bs 0 l).map (fun p => p.2)) = l :=
  chunksFromFuel_join bs hbs l.length l 0 (le_refl _)

theorem pyGetI_ok_nonneg {α : Type} [Inhabited α] (l : List α) (i : Int)
    (h0 : 0 ≤ i) (hn : i < (l.length : Int)) :
    pyGetI l i = Except.ok (l.getD i.toNat default) := by
  rw [pyGetI, pyIndex_nonneg _ _ h0 hn]

theorem exceptMapM_pyGetI (batch : List Article) :
    ∀ idxs : List Int, (∀ i ∈ idxs, 0 ≤ i ∧ i < (batch.length : Int)) →
      exceptMapM (fun i => pyGetI batch i) idxs =
        Except.ok (idxs.map (fun i => batch.getD i.toNat default)) := by
  intro idxs
  induction idxs with
  | nil =>
    intro _
    rfl
  | cons i idxs ih =>
    intro h
    have hi := h i (List.mem_cons_self _ _)
    rw [exceptMapM, pyGetI_ok_nonneg batch i hi.1 hi.2,
      ih (fun j hj => h j (List.mem_cons_of_mem _ hj))]
    rfl

theorem mkLlmTopicGroup_ok (batch : List Article) (g : GroupResultM)
    (h : ∀ i ∈ g.article_indices, 0 ≤ i ∧ i < (batch.length : Int)) :
    ∃ tg, mkLlmTopicGroup batch g = Except.ok tg ∧
      tg.articles = g.article_indices.map (fun i => batch.getD i.toNat default) := by
  rw [mkLlmTopicGroup]
  simp only [bind, Except.bind]
  rw [exceptMapM_pyGetI batch g.article_indices h]
  exact ⟨_, rfl, rfl⟩

theorem exceptMapM_mkLlm (batch : List Article) :
    ∀ gs : List GroupResultM,
      (∀ g ∈ gs, ∀ i ∈ g.article_indices, 0 ≤ i ∧ i < (batch.length : Int)) →
      ∃ tgs, exceptMapM (mkLlmTopicGroup batch) gs = Except.ok tgs ∧
        List.join (tgs.map (fun tg => tg.articles)) =
          (gs.flatMap (fun g => g.article_indices)).map
            (fun i => batch.getD i.toNat default) := by
  intro gs
  induction gs with
  | nil =>
    intro _
    exact ⟨[], rfl, rfl⟩
  | cons g gs ih =>
    intro h
    obtain ⟨tg, htg, harts⟩ :=
      mkLlmTopicGroup_ok batch g (h g (List.mem_cons_self _ _))
    obtain ⟨tgs, htgs, hjoin⟩ := ih (fun g' hg' => h g' (List.mem_cons_of_mem _ hg'))
    refine ⟨tg :: tgs, ?_, ?_⟩
    · rw [exceptMapM, htg, htgs]
    · rw [List.map_cons]
      simp only [List.join] at hjoin ⊢
      simp only [List.flatten_cons]
      rw [harts, hjoin, List.flatMap_cons, List.map_append]

/-- The assisted-grouping batch loop: whenever every accepted response's
groups reference exactly the batch's indices (each exactly once), the loop
never raises, and a non-`None` result lays out exactly the concatenation of
the batches. -/
theorem llm_group_batches_partition (oracle : Nat → Except Unit (List GroupResultM)) :
    ∀ chunks : List (Nat × List Article),
      (∀ p ∈ chunks, ∀ gs, oracle p.1 = Except.ok gs → gs.isEmpty = false →
        List.Perm (gs.flatMap (fun g => g.article_indices))
          ((List.range p.2.length).map Int.ofNat)) →
      ∃ res, llm_group_batches oracle chunks = Except.ok res ∧
        ∀ tgs, res = some tgs →
          List.Perm (List.join (tgs.map (fun tg => tg.articles)))
            (List.join (chunks.map (fun p => p.2))) := by
  intro chunks
  induction chunks with
  | nil =>
    intro _
    refine ⟨some [], rfl, ?_⟩
    intro tgs htgs
    cases htgs
    exact List.Perm.refl _
  | cons p rest ih =>
    intro hwf
    obtain ⟨start, batch⟩ := p
    rw [llm_group_batches]
    cases horc : oracle start with
    | error e =>
      refine ⟨none, rfl, ?_⟩
      intro tgs htgs
      cases htgs
    | ok resp =>
      dsimp only
      by_cases hemp : resp.isEmpty
      · rw [if_pos hemp]
        exact ⟨none, rfl, fun tgs htgs => by cases htgs⟩
      · rw [if_neg hemp]
        simp only [bind, Except.bind]
        have hperm : List.Perm (resp.flatMap (fun g => g.article_indices))
            ((List.range batch.length).map Int.ofNat) :=
          hwf (start, batch) (List.mem_cons_self _ _) resp horc
            (Bool.eq_false_iff.mpr hemp)
        have hbound : ∀ g ∈ resp, ∀ i ∈ g.article_indices,
            0 ≤ i ∧ i < (batch.length : Int) := by
          intro g hg i hi
          have hmem : i ∈ (List.range batch.length).map Int.ofNat :=
            hperm.mem_iff.mp (List.mem_flatMap.mpr ⟨g, hg, hi⟩)
          obtain ⟨k, hk, hki⟩ := List.mem_map.mp hmem
          rw [← hki]
          have hlt : k < batch.length := List.mem_range.mp hk
          exact ⟨Int.ofNat_nonneg k, by rw [Int.ofNat_eq_natCast]; exact_mod_cast hlt⟩
        obtain ⟨tgs1, htgs1, hjoin1⟩ := exceptMapM_mkLlm batch resp hbound
        rw [htgs1]
        obtain ⟨res', hres', hprop'⟩ :=
          ih (fun q hq => hwf q (List.mem_cons_of_mem _ hq))
        rw [hres']
        cases res' with
        | none =>
          exact ⟨none, rfl, fun tgs htgs => by cases htgs⟩
        | some more =>
          refine ⟨some (tgs1 ++ more), rfl, ?_⟩
          intro tgs htgs
          cases htgs
          have hmore := hprop' more rfl
          rw [List.map_cons]
          simp only [List.join] at hjoin1 hmore ⊢
          simp only [List.flatten_cons]
          rw [List.map_append, List.flatten_append, hjoin1]
          refine List.Perm.append ?_ hmore
          have h1 := hperm.map (fun i => batch.getD i.toNat default)
          rw [List.map_map] at h1
          have h2 : (List.range batch.length).map
              ((fun (i : Int) => batch.getD i.toNat default) ∘ Int.ofNat) = batch := by
            have hco : ((fun (i : Int) => batch.getD i.toNat default) ∘ Int.ofNat) =
                (fun k => batch.getD k default) := by
              funext k
              rfl
            rw [hco, map_getD_range]
          rw [h2] at h1
          exact h1

/-- The grouping stage partitions the primaries it is given, on either
strategy, whenever the index lists of every accepted assisted response cover
the batch exactly once. -/
theorem groupStage_partition (tier : UserTier)
    (orc : Option (Nat → Except Unit (List GroupResultM)))
    (dgs : List DedupGroup)
    (hwf : ∀ p ∈ chunksFrom 20 0 (dgs.map (fun g => g.primary)), ∀ gs,
      (orc.getD (fun _ => Except.error ())) p.1 = Except.ok gs → gs.isEmpty = false →
      List.Perm (gs.flatMap (fun g => g.article_indices))
        ((List.range p.2.length).map Int.ofNat)) :
    ∃ out, groupStage tier orc dgs = Except.ok out ∧
      List.Perm (List.join (out.map (fun g => g.articles)))
        (dgs.map (fun g => g.primary)) := by
  rw [groupStage]
  by_cases hnil : dgs = []
  · rw [if_pos hnil, hnil]
    exact ⟨[], rfl, List.Perm.nil⟩
  · rw [if_neg hnil]
    by_cases hpo : tier = UserTier.paid ∧ orc.isSome
    · rw [if_pos hpo]
      obtain ⟨res, hres, hprop⟩ := llm_group_batches_partition
        (orc.getD (fun _ => Except.error ()))
        (chunksFrom 20 0 (dgs.map (fun g => g.primary))) hwf
      simp only [bind, Except.bind]
      rw [llm_group, hres]
      cases res with
      | none =>
        exact ⟨_, rfl, tfidf_group_partition _⟩
      | some gs =>
        dsimp only
        by_cases hemp : gs.isEmpty
        · rw [if_pos hemp]
          exact ⟨_, rfl, tfidf_group_partition _⟩
        · rw [if_neg hemp]
          refine ⟨gs, rfl, ?_⟩
          have h1 := hprop gs rfl
          rw [chunksFrom_join 20 (by omega) (dgs.map (fun g => g.primary))] at h1
          exact h1
    · rw [if_neg hpo]
      exact ⟨_, rfl, tfidf_group_partition _⟩

/-- C1 (amended): the Deduplicator's output clusters partition the input
articles — each appears exactly once across all primaries and duplicates —
and the Grouper's output TopicGroups contain each supplied primary exactly
once under either strategy, provided each accepted oracle response is
well-formed: dedup groups nonempty with in-range, never-repeated indices,
and assisted-grouping responses whose index lists cover their batch exactly
once.  The original unconditional claim is refuted by the counterexample: a
malformed accepted response breaks the partition. -/
theorem C1_partition :
    (∀ (tier : UserTier) (oracle : Option (Nat → Except Unit (List (List Int))))
       (articles : List Article),
      (∀ p ∈ chunksFrom 50 0 ((fingerprint_dedup articles).map (fun g => g.primary)),
        ∀ g ∈ exceptD ((oracle.getD (fun _ => Except.error ())) p.1) [], g ≠ []) →
      (∀ x ∈ semResolved (oracle.getD (fun _ => Except.error ()))
          ((fingerprint_dedup articles).map (fun g => g.primary)),
        0 ≤ x ∧
          x < ((((fingerprint_dedup articles).map (fun g => g.primary)).length : Nat) : Int)) →
      (semResolved (oracle.getD (fun _ => Except.error ()))
          ((fingerprint_dedup articles).map (fun g => g.primary))).Nodup →
      ∃ out, dedupStage tier oracle articles = Except.ok out ∧
        List.Perm (List.join (out.map (fun g => g.primary :: g.duplicates))) articles) ∧
    (∀ (tier : UserTier) (orc : Option (Nat → Except Unit (List GroupResultM)))
       (dgs : List DedupGroup),
      (∀ p ∈ chunksFrom 20 0 (dgs.map (fun g => g.primary)),
        (exceptD ((orc.getD (fun _ => Except.error ())) p.1) []).isEmpty = false →
        List.Perm
          ((exceptD ((orc.getD (fun _ => Except.error ())) p.1) []).flatMap
            (fun g => g.article_indices))
          ((List.range p.2.length).map Int.ofNat)) →
      ∃ out, groupStage tier orc dgs = Except.ok out ∧
        List.Perm (List.join (out.map (fun g => g.articles)))
          (dgs.map (fun g => g.primary))) := by
  constructor
  · intro tier oracle articles h1 h2 h3
    exact dedupStage_partition tier oracle articles h1 h2 h3
  · intro tier orc dgs hw
    apply groupStage_partition tier orc dgs
    intro p hp gs horc hemp
    have h := hw p hp
    rw [horc] at h
    exact h hemp

/-- A malformed accepted oracle response (a self-referential dedup group)
makes the dedup stage drop an article: the original unconditional partition
claim fails. -/
theorem C1_counterexample :
    dedupStage UserTier.paid (some (fun _ => Except.ok [[0, 0]]))
        [artRank1, artRank2] =
      Except.ok [{ primary := artRank2, duplicates := [] }] ∧
    ¬ List.Perm
        (List.join (([{ primary := artRank2, duplicates := [] }] : List DedupGroup).map
          (fun g => g.primary :: g.duplicates)))
        [artRank1, artRank2] :=
  ⟨rfl, by decide⟩

theorem C1_partition_witness :
    (∃ out, dedupStage UserTier.paid (some (fun _ => Except.ok [[0, 1]]))
        [artRank1, artRank2] = Except.ok out ∧
      List.Perm (List.join (out.map (fun g => g.primary :: g.duplicates)))
        [artRank1, artRank2]) ∧
    (∃ out, groupStage UserTier.paid (some (fun _ => Except.ok [pairIdxResponse]))
        [{ primary := artRank1, duplicates := [] },
         { primary := artRank2, duplicates := [] }] = Except.ok out ∧
      List.Perm (List.join (out.map (fun g => g.articles)))
        (([{ primary := artRank1, duplicates := [] },
            { primary := artRank2, duplicates := [] }] : List DedupGroup).map
          (fun g => g.primary))) :=
  ⟨C1_partition.1 UserTier.paid (some (fun _ => Except.ok [[0, 1]]))
      [artRank1, artRank2] (by decide) (by decide) (by decide),
   C1_partition.2 UserTier.paid (some (fun _ => Except.ok [pairIdxResponse]))
      [{ primary := artRank1, duplicates := [] },
       { primary := artRank2, duplicates := [] }] (by decide)⟩
